import Mathlib

/-!
Verification of the Warped K-Means implementation (src/js/wkmb.js).

The JavaScript source is shallowly embedded below.  Numbers are modelled by
exact rational arithmetic: the type `Frac` carries an integer numerator and a
positive natural denominator, every operation of the source is mirrored on it,
and `Frac.toRat` maps a value to the rational it denotes.  All operations are
kernel-computable, so concrete runs of the algorithm can be evaluated inside
proofs.  The collaborator module `./mathlib` (squared distance, cluster
center, cumulative path length) is not part of the repository snapshot; those
operations are modelled from the specification's interface contract and are
marked as such.
-/

/-- Exact fraction: integer numerator over a positive natural denominator.
Values are not kept normalised; `toRat` gives the denoted rational. -/
structure Frac where
  num : Int
  den : Nat
  hden : 0 < den

/-- The rational number denoted by a `Frac`. -/
def Frac.toRat (a : Frac) : ℚ := (a.num : ℚ) / (a.den : ℚ)

def Frac.ofInt (n : Int) : Frac := ⟨n, 1, Nat.one_pos⟩

def Frac.ofNat (n : Nat) : Frac := ⟨(n : Int), 1, Nat.one_pos⟩

instance (n : Nat) : OfNat Frac n := ⟨Frac.ofNat n⟩

def Frac.add (a b : Frac) : Frac :=
  ⟨a.num * b.den + b.num * a.den, a.den * b.den, Nat.mul_pos a.hden b.hden⟩

instance : Add Frac := ⟨Frac.add⟩

def Frac.sub (a b : Frac) : Frac :=
  ⟨a.num * b.den - b.num * a.den, a.den * b.den, Nat.mul_pos a.hden b.hden⟩

instance : Sub Frac := ⟨Frac.sub⟩

def Frac.mul (a b : Frac) : Frac :=
  ⟨a.num * b.num, a.den * b.den, Nat.mul_pos a.hden b.hden⟩

instance : Mul Frac := ⟨Frac.mul⟩

/-- Division; division by a zero-valued fraction yields 0 (matching the
convention of `ℚ`, and unreachable on the runs considered). -/
def Frac.div (a b : Frac) : Frac :=
  if h : 0 < b.num then
    ⟨a.num * b.den, a.den * b.num.toNat, Nat.mul_pos a.hden (by omega)⟩
  else if h2 : b.num < 0 then
    ⟨-(a.num * b.den), a.den * (-b.num).toNat, Nat.mul_pos a.hden (by omega)⟩
  else ⟨0, 1, Nat.one_pos⟩

instance : Div Frac := ⟨Frac.div⟩

def Frac.lt (a b : Frac) : Prop := a.num * (b.den : Int) < b.num * (a.den : Int)

instance : LT Frac := ⟨Frac.lt⟩

instance (a b : Frac) : Decidable (a < b) :=
  inferInstanceAs (Decidable (a.num * (b.den : Int) < b.num * (a.den : Int)))

/-- Value equality of fractions (cross multiplication). -/
def Frac.veq (a b : Frac) : Bool := a.num * (b.den : Int) == b.num * (a.den : Int)

/-- Floor of the denoted rational (JavaScript Math.floor). -/
def Frac.floor (a : Frac) : Int := Int.fdiv a.num a.den

theorem Frac.den_cast_ne_zero (a : Frac) : ((a.den : ℚ)) ≠ 0 :=
  Nat.cast_ne_zero.mpr a.hden.ne'

theorem Frac.toRat_add (a b : Frac) : (a + b).toRat = a.toRat + b.toRat := by
  have ha := a.den_cast_ne_zero
  have hb := b.den_cast_ne_zero
  show ((a.num * b.den + b.num * a.den : Int) : ℚ) / ((a.den * b.den : Nat) : ℚ) =
    (a.num : ℚ) / (a.den : ℚ) + (b.num : ℚ) / (b.den : ℚ)
  push_cast
  field_simp

theorem Frac.toRat_sub (a b : Frac) : (a - b).toRat = a.toRat - b.toRat := by
  have ha := a.den_cast_ne_zero
  have hb := b.den_cast_ne_zero
  show ((a.num * b.den - b.num * a.den : Int) : ℚ) / ((a.den * b.den : Nat) : ℚ) =
    (a.num : ℚ) / (a.den : ℚ) - (b.num : ℚ) / (b.den : ℚ)
  push_cast
  field_simp
  ring

theorem Frac.toRat_mul (a b : Frac) : (a * b).toRat = a.toRat * b.toRat := by
  have ha := a.den_cast_ne_zero
  have hb := b.den_cast_ne_zero
  show ((a.num * b.num : Int) : ℚ) / ((a.den * b.den : Nat) : ℚ) =
    (a.num : ℚ) / (a.den : ℚ) * ((b.num : ℚ) / (b.den : ℚ))
  push_cast
  field_simp

theorem Frac.toRat_div (a b : Frac) : (a / b).toRat = a.toRat / b.toRat := by
  have ha := a.den_cast_ne_zero
  have hb := b.den_cast_ne_zero
  show (Frac.div a b).toRat = a.toRat / b.toRat
  unfold Frac.div
  split
  · rename_i h
    have hbn : ((b.num.toNat : ℚ)) = (b.num : ℚ) := by
      exact_mod_cast Int.toNat_of_nonneg h.le
    have hq : ((b.num : ℚ)) ≠ 0 := by exact_mod_cast h.ne'
    show ((a.num * b.den : Int) : ℚ) / ((a.den * b.num.toNat : Nat) : ℚ) =
      (a.num : ℚ) / (a.den : ℚ) / ((b.num : ℚ) / (b.den : ℚ))
    push_cast [hbn]
    field_simp
  · split
    · rename_i hnot h2
      have hbn : (((-b.num).toNat : ℚ)) = -(b.num : ℚ) := by
        exact_mod_cast Int.toNat_of_nonneg (by omega : (0:Int) ≤ -b.num)
      have hq : ((b.num : ℚ)) ≠ 0 := by exact_mod_cast h2.ne
      show ((-(a.num * b.den) : Int) : ℚ) / ((a.den * (-b.num).toNat : Nat) : ℚ) =
        (a.num : ℚ) / (a.den : ℚ) / ((b.num : ℚ) / (b.den : ℚ))
      push_cast [hbn]
      field_simp
    · rename_i hnot h2
      have hz : b.num = 0 := by omega
      show ((0 : Int) : ℚ) / ((1 : Nat) : ℚ) = (a.num : ℚ) / (a.den : ℚ) / ((b.num : ℚ) / (b.den : ℚ))
      rw [hz]
      simp

theorem Frac.toRat_ofNat (n : Nat) : (Frac.ofNat n).toRat = (n : ℚ) := by
  show ((n : Int) : ℚ) / ((1 : Nat) : ℚ) = (n : ℚ)
  push_cast
  simp

theorem Frac.toRat_ofInt (n : Int) : (Frac.ofInt n).toRat = (n : ℚ) := by
  show ((n : Int) : ℚ) / ((1 : Nat) : ℚ) = (n : ℚ)
  simp

theorem Frac.lt_iff_toRat (a b : Frac) : a < b ↔ a.toRat < b.toRat := by
  have ha : (0 : ℚ) < (a.den : ℚ) := by exact_mod_cast a.hden
  have hb : (0 : ℚ) < (b.den : ℚ) := by exact_mod_cast b.hden
  show a.num * (b.den : Int) < b.num * (a.den : Int) ↔
    (a.num : ℚ) / (a.den : ℚ) < (b.num : ℚ) / (b.den : ℚ)
  rw [div_lt_div_iff₀ ha hb]
  constructor
  · intro h
    exact_mod_cast h
  · intro h
    exact_mod_cast h

theorem Frac.veq_iff_toRat (a b : Frac) : a.veq b = true ↔ a.toRat = b.toRat := by
  have ha : (0 : ℚ) < (a.den : ℚ) := by exact_mod_cast a.hden
  have hb : (0 : ℚ) < (b.den : ℚ) := by exact_mod_cast b.hden
  show (a.num * (b.den : Int) == b.num * (a.den : Int)) = true ↔
    (a.num : ℚ) / (a.den : ℚ) = (b.num : ℚ) / (b.den : ℚ)
  rw [beq_iff_eq, div_eq_div_iff ha.ne' hb.ne']
  constructor
  · intro h
    exact_mod_cast h
  · intro h
    exact_mod_cast h

theorem Frac.toRat_zero : (0 : Frac).toRat = 0 := by
  show ((0 : Nat) : Int) / ((1 : Nat) : ℚ) = (0 : ℚ)
  simp

/-- A sample vector (JS arrays of numbers). -/
abbrev Vec := List Frac

/-- JavaScript String.prototype.toLowerCase, modelled as per-character
lowering of the underlying character list. -/
def strToLower (s : String) : String := ⟨s.data.map Char.toLower⟩

/-- Modelled from the spec: math.sqL2 is the squared Euclidean distance
between equal-length vectors (the collaborator module is not in the
snapshot). -/
def sqL2 (u v : Vec) : Frac :=
  (List.zipWith (fun a b => (a - b) * (a - b)) u v).foldr (· + ·) 0

def vadd (u v : Vec) : Vec := List.zipWith (· + ·) u v

/-- Modelled from the spec: math.clustercenter is the element-wise mean of a
non-empty sequence of equal-length vectors. -/
def clustercenter (points : List Vec) : Vec :=
  match points with
  | [] => []
  | p :: ps => (ps.foldl vadd p).map (fun x => x / Frac.ofNat (ps.length + 1))

/-- Within-segment energy: sum of squared distances of the members to a
center, exactly as accumulated in computeEnergies. -/
def localEnergyOf (points : List Vec) (c : Vec) : Frac :=
  (points.map (fun p => sqL2 p c)).foldr (· + ·) 0

/-- Ghost log entry for one candidate evaluation in the optimization loop:
the segment index, the n used in J2 (fixed at scan start), the current size m
of the adjacent segment, the current size of segment j, the candidate sample,
the two centroids read, and the decision taken. -/
structure CandRec where
  j : Nat
  nUsed : Nat
  m : Nat
  curLen : Nat
  sample : Vec
  centb : Vec
  centj : Vec
  accepted : Bool

/-- Ghost log entry for one accepted move: the two segment indices, the two
incrementally updated centroids, and the membership lists after the move. -/
structure MoveRec where
  j : Nat
  best : Nat
  newCentj : Vec
  newCentBest : Vec
  newClusters : List (List Vec)

/-- The instance state of the WKM class.  The fields `energyAtStart`,
`evalLog`, `moveLog` and `sweepLog` are ghost instrumentation: they are
written but never read by the algorithm. -/
structure WKM where
  samples : List Vec
  numclusters : Nat
  threshold : Frac
  dimensions : Nat
  maxiter : Nat
  initialized : Bool
  boundaries : List Nat
  clusters : List (List Vec)
  centroids : List Vec
  localenergy : List Frac
  totalenergy : Frac
  iterations : Nat
  numtransfers : Nat
  cost : Nat
  energyAtStart : Frac
  evalLog : List CandRec
  moveLog : List MoveRec
  sweepLog : List Bool

/-- WKM.prototype.reset.  The JS fills boundaries/clusters/centroids with the
number 0; those placeholders are never read before being overwritten, and are
modelled by 0 and by empty lists. -/
def WKM.reset (s : WKM) : WKM :=
  { s with initialized := false,
           boundaries := List.replicate s.numclusters 0,
           clusters := List.replicate s.numclusters [],
           centroids := List.replicate s.numclusters [],
           localenergy := List.replicate s.numclusters 0,
           totalenergy := 0, iterations := 0, numtransfers := 0, cost := 0,
           energyAtStart := 0, evalLog := [], moveLog := [], sweepLog := [] }

/-- The WKM constructor: clamps the cluster count to [1, N] and the threshold
to [0, 1], then resets.  Assumes a non-empty sample list (the JS reads
samples[0].length). -/
def mkWKM (samples : List Vec) (numclusters : Int) (threshold : Frac) : WKM :=
  let N := samples.length
  let k1 : Nat := if numclusters < 1 then 1
                  else if (N : Int) < numclusters then N else numclusters.toNat
  let th := if Frac.ofNat 1 < threshold then Frac.ofNat 1
            else if threshold < Frac.ofNat 0 then Frac.ofNat 0 else threshold
  WKM.reset
    { samples := samples, numclusters := k1, threshold := th,
      dimensions := (samples.getD 0 []).length, maxiter := 100, initialized := false,
      boundaries := [], clusters := [], centroids := [], localenergy := [],
      totalenergy := 0, iterations := 0, numtransfers := 0, cost := 0,
      energyAtStart := 0, evalLog := [], moveLog := [], sweepLog := [] }

/-- The recorded quotient floor((i+1)*M/(N+1)) of WKM.prototype.resample. -/
def rq (N M i : Nat) : Int := ((i + 1) * M / (N + 1) : Nat)

/-- One iteration of the loop of WKM.prototype.resample: push i whenever the
quotient exceeds the last recorded value b (initially -1). -/
def resampleStep (N M : Nat) (acc : List Nat × Int) (i : Nat) : List Nat × Int :=
  if acc.2 < rq N M i then (acc.1 ++ [i], rq N M i) else acc

/-- The boundary list produced by WKM.prototype.resample (equal-count
allocation). -/
def resampleAux (N M : Nat) : List Nat × Int :=
  (List.range N).foldl (resampleStep N M) ([], -1)

def resampleBoundaries (N M : Nat) : List Nat := (resampleAux N M).1

/-- WKM.prototype.resample as a state transformer. -/
def WKM.resample (s : WKM) (N M : Nat) : WKM :=
  { s with boundaries := resampleBoundaries N M, initialized := true }

/-- The loop condition of the index-advancing while loop in
WKM.prototype.TS: advance while fact > Lcum[i] (false once i runs off the
array, as in JS) or i is already recorded as a boundary. -/
def tsCond (Lcum : List Frac) (fact : Frac) (bs : List Nat) (i : Nat) : Bool :=
  (decide (i < Lcum.length) && decide (Lcum.getD i 0 < fact)) || bs.contains i

/-- The while loop of WKM.prototype.TS; the fuel passed by tsBoundaries is
provably sufficient (tsAdvance_not_cond below), so the recursion mirrors the
JS loop exactly. -/
def tsAdvance (Lcum : List Frac) (fact : Frac) (bs : List Nat) : Nat → Nat → Nat
  | i, 0 => i
  | i, fuel+1 => if tsCond Lcum fact bs i then tsAdvance Lcum fact bs (i+1) fuel else i

/-- One iteration of the outer for loop of WKM.prototype.TS (the JS index j
runs from 1 to M; here j1 = j - 1, so fact = j1 * incr). -/
def tsStep (Lcum : List Frac) (incr : Frac) (acc : List Nat × Nat) (j1 : Nat) : List Nat × Nat :=
  let fact := Frac.ofNat j1 * incr
  let i2 := tsAdvance Lcum fact acc.1 acc.2 (Lcum.length + acc.1.length + 2)
  (acc.1 ++ [i2], i2)

/-- The boundary list produced by WKM.prototype.TS (trace segmentation).
Modelled from the spec: math.cumdist is passed in as the list Lcum of running
arc lengths (one entry per sample) together with the total length L. -/
def tsBoundaries (Lcum : List Frac) (L : Frac) (M : Nat) : List Nat :=
  ((List.range M).foldl (tsStep Lcum (L / Frac.ofNat M)) (([] : List Nat), 0)).1

/-- WKM.prototype.TS as a state transformer (its N argument is unused in the
source as well). -/
def WKM.TS (s : WKM) (Lcum : List Frac) (L : Frac) (N M : Nat) : WKM :=
  { s with boundaries := tsBoundaries Lcum L M, initialized := true }

/-- WKM.prototype.initdefault: resample if N/M < 2, else TS; then the result
is unconditionally overwritten by a final resample (as in the source). -/
def WKM.initdefault (s : WKM) (Lcum : List Frac) (L : Frac) (N M : Nat) : WKM :=
  let s1 := { s with boundaries := [] }
  let s2 := if Frac.ofNat N / Frac.ofNat M < Frac.ofNat 2 then s1.resample N M
            else s1.TS Lcum L N M
  s2.resample N M

/-- WKM.prototype.init. -/
def WKM.init (s : WKM) (method : Option String) (Lcum : List Frac) (L : Frac) : WKM :=
  let s1 := s.reset
  let N := s1.samples.length
  let M := s1.numclusters
  if M ≤ 1 then { s1 with boundaries := [0] }
  else if N ≤ M then { s1 with boundaries := List.range M }
  else
    match method with
    | none => s1.initdefault Lcum L N M
    | some meth =>
      let lm := strToLower meth
      if lm = "ts" then s1.TS Lcum L N M
      else if lm = "eq" then s1.resample N M
      else s1.initdefault Lcum L N M

/-- JS Array.prototype.slice for non-negative indices. -/
def listSlice (xs : List Vec) (a b : Nat) : List Vec := (xs.drop a).take (b - a)

/-- WKM.prototype.getClusterSamples.  A missing boundary entry reads as 0,
matching slice(undefined, l) in JS. -/
def WKM.getClusterSamples (s : WKM) (index : Nat) : List Vec :=
  let l := if index + 1 < s.numclusters then s.boundaries.getD (index + 1) 0
           else s.samples.length
  listSlice s.samples (s.boundaries.getD index 0) l

/-- WKM.prototype.getPartition: derive every segment from the boundaries,
failing on the first empty one. -/
def WKM.getPartition (s : WKM) : Except String WKM :=
  match (List.range s.numclusters).find? (fun j => (s.getClusterSamples j).isEmpty) with
  | some j => Except.error ("Empty cluster " ++ toString j)
  | none => Except.ok { s with clusters := (List.range s.numclusters).map s.getClusterSamples }

/-- WKM.prototype.setPartition: adopt the supplied segments, failing on the
first empty one; boundaries are rebuilt as 0 followed by each later segment's
length minus one, exactly as in the source. -/
def WKM.setPartition (s : WKM) (partition : List (List Vec)) : Except String WKM :=
  match partition.findIdx? (fun pts => pts.isEmpty) with
  | some j => Except.error ("Empty cluster " ++ toString j)
  | none => Except.ok
      { s with boundaries := 0 :: (partition.drop 1).map (fun pts => pts.length - 1),
               clusters := partition }

/-- WKM.prototype.computeEnergies: from-scratch centroids, local energies and
total energy, failing on the first empty segment. -/
def WKM.computeEnergies (s : WKM) : Except String WKM :=
  match (List.range s.numclusters).find? (fun j => (s.clusters.getD j []).isEmpty) with
  | some j => Except.error ("Empty cluster " ++ toString j)
  | none =>
    let cents := (List.range s.numclusters).map (fun j => clustercenter (s.clusters.getD j []))
    let les := (List.range s.numclusters).map
      (fun j => localEnergyOf (s.clusters.getD j []) (cents.getD j []))
    Except.ok { s with centroids := cents, localenergy := les,
                       totalenergy := les.foldr (· + ·) 0 }

/-- WKM.prototype.incrementalMeans, coordinate by coordinate over the
declared dimension count; n and m are the sizes the caller passes. -/
def WKM.incrementalMeans (s : WKM) (sample : Vec) (j bestcluster n m : Nat) : WKM :=
  let cb := s.centroids.getD bestcluster []
  let cj := s.centroids.getD j []
  let newbest := (List.range s.dimensions).map (fun d =>
    cb.getD d 0 + (sample.getD d 0 - cb.getD d 0) / (Frac.ofNat m + Frac.ofNat 1))
  let newj := (List.range s.dimensions).map (fun d =>
    cj.getD d 0 - (sample.getD d 0 - cj.getD d 0) / (Frac.ofNat n - Frac.ofNat 1))
  { s with centroids := (s.centroids.set bestcluster newbest).set j newj }

/-- The acceptance test of one candidate evaluation: J1 - J2 < 0 (with J2
computed from the scan-start size n) and segment j currently retains more
than one member. -/
def acceptTest (s : WKM) (j b n : Nat) (sample : Vec) : Bool :=
  let m := (s.clusters.getD b []).length
  let J1 := Frac.ofNat m / (Frac.ofNat m + Frac.ofNat 1) *
    sqL2 sample (s.centroids.getD b [])
  let J2 := Frac.ofNat n / (Frac.ofNat n - Frac.ofNat 1) *
    sqL2 sample (s.centroids.getD j [])
  decide (J1 - J2 < Frac.ofNat 0) && decide (1 < (s.clusters.getD j []).length)

/-- The ghost log record of one candidate evaluation. -/
def candRecOf (s : WKM) (j b n : Nat) (sample : Vec) : CandRec :=
  ⟨j, n, (s.clusters.getD b []).length, (s.clusters.getD j []).length, sample,
    s.centroids.getD b [], s.centroids.getD j [], acceptTest s j b n sample⟩

/-- The state mutation of one accepted move, before the partition is
re-derived: transfer counter, boundary shift (boundary j moves right for a
move into segment b = j-1, boundary b moves left for a move into b = j+1),
incremental centroid update, and the J1/J2/delta energy bookkeeping. -/
def moveState (s : WKM) (j b n : Nat) (sample : Vec) : WKM :=
  let m := (s.clusters.getD b []).length
  let J1 := Frac.ofNat m / (Frac.ofNat m + Frac.ofNat 1) *
    sqL2 sample (s.centroids.getD b [])
  let J2 := Frac.ofNat n / (Frac.ofNat n - Frac.ofNat 1) *
    sqL2 sample (s.centroids.getD j [])
  let s1 :=
    { s with
      numtransfers := s.numtransfers + 1,
      boundaries := if b < j then s.boundaries.set j (s.boundaries.getD j 0 + 1)
                    else s.boundaries.set b (s.boundaries.getD b 0 - 1) }
  let s2 := s1.incrementalMeans sample j b n m
  { s2 with
    localenergy := (s2.localenergy.set b
        (s2.localenergy.getD b 0 + J1)).set j (s2.localenergy.getD j 0 - J2),
    totalenergy := s2.totalenergy + (J1 - J2) }

/-- One candidate evaluation of the optimization loop, shared by the two
scans of WKM.prototype.cluster (their bodies are textually identical in the
source up to the adjacent segment index b = j-1 or b = j+1 and the direction
of the boundary shift, selected here by comparing b with j).  n is the size
of segment j at scan start, held fixed by the source for the whole scan.
Returns the updated state and whether the move was accepted; on acceptance
the boundary is shifted, the centroids are updated incrementally, the
energies are adjusted by J1, J2 and delta, and the partition is re-derived
(which can raise EmptyCluster). -/
def scanEval (s : WKM) (j b n : Nat) (sample : Vec) : Except String (WKM × Bool) :=
  let s0 :=
    { s with
      cost := s.cost + 1,
      evalLog := s.evalLog ++ [candRecOf s j b n sample] }
  if acceptTest s j b n sample then
    match (moveState s0 j b n sample).getPartition with
    | Except.error e => Except.error e
    | Except.ok s4 =>
      Except.ok
        ({ s4 with moveLog := s4.moveLog ++
            [⟨j, b, s4.centroids.getD j [], s4.centroids.getD b [], s4.clusters⟩] }, true)
  else Except.ok (s0, false)

/-- The first-half (left) scan of WKM.prototype.cluster for segment j: the
candidates pts are the members of segment j when the scan started, n is the
segment size at that moment, i is the running candidate index and the fuel
counts the remaining loop iterations (bound + 1 - i, so running out of fuel
is exactly the loop condition i <= bound turning false). -/
def leftScanAux (j : Nat) (pts : List Vec) (n : Nat) :
    Nat → Nat → WKM → Bool → Except String (WKM × Bool)
  | _, 0, s, tr => Except.ok (s, tr)
  | i, fuel+1, s, tr =>
    match scanEval s j (j - 1) n (pts.getD i []) with
    | Except.error e => Except.error e
    | Except.ok (s5, true) => leftScanAux j pts n (i+1) fuel s5 true
    | Except.ok (s0, false) => Except.ok (s0, tr)

/-- The second-half (right) scan of WKM.prototype.cluster for segment j; the
index i runs downward and may formally reach -1, but the size guard always
rejects (and so breaks the loop) before a negative index is evaluated. -/
def rightScanAux (j : Nat) (pts : List Vec) (n : Nat) :
    Int → Nat → WKM → Bool → Except String (WKM × Bool)
  | _, 0, s, tr => Except.ok (s, tr)
  | i, fuel+1, s, tr =>
    match scanEval s j (j + 1) n (pts.getD i.toNat []) with
    | Except.error e => Except.error e
    | Except.ok (s5, true) => rightScanAux j pts n (i-1) fuel s5 true
    | Except.ok (s0, false) => Except.ok (s0, tr)

/-- Processing of one segment j inside a sweep: the two guarded scans with
their bounds computed as in the source (and, between them, the re-read of the
segment size with its early continue). -/
def processSegment (s : WKM) (tr : Bool) (j : Nat) : Except String (WKM × Bool) :=
  let pts := s.clusters.getD j []
  let n := pts.length
  if n < 2 then Except.ok (s, tr)
  else
    let step1 : Except String (WKM × Bool) :=
      if 0 < j then
        let fuelL := (Frac.floor (Frac.ofNat n / Frac.ofNat 2 *
          (Frac.ofNat 1 - s.threshold)) + 2).toNat
        leftScanAux j pts n 0 fuelL s tr
      else Except.ok (s, tr)
    match step1 with
    | Except.error e => Except.error e
    | Except.ok (s1, tr1) =>
      let pts2 := s1.clusters.getD j []
      let n2 := pts2.length
      if n2 < 2 then Except.ok (s1, tr1)
      else if j + 1 < s1.numclusters then
        let lowb := Frac.floor (Frac.ofNat n2 / Frac.ofNat 2 *
          (Frac.ofNat 1 + s1.threshold)) - 2
        let fuelR := ((n2 : Int) - lowb).toNat
        rightScanAux j pts2 n2 ((n2 : Int) - 1) fuelR s1 tr1
      else Except.ok (s1, tr1)

/-- One full sweep over the listed segment indices, threading the transfers
flag. -/
def sweepSegs : List Nat → WKM → Bool → Except String (WKM × Bool)
  | [], s, tr => Except.ok (s, tr)
  | j :: js, s, tr =>
    match processSegment s tr j with
    | Except.error e => Except.error e
    | Except.ok (s1, tr1) => sweepSegs js s1 tr1

/-- One sweep of the while loop of WKM.prototype.cluster: all segments in
order, starting with a cleared transfers flag. -/
def sweep (s : WKM) : Except String (WKM × Bool) :=
  sweepSegs (List.range s.numclusters) s false

/-- The while loop of WKM.prototype.cluster.  The JS loop is unbounded, so it
is modelled with explicit fuel: none means the loop has not exited within
that many sweeps.  After each sweep the iteration counter is incremented and
the loop exits iff no transfer happened or the counter equals maxiter. -/
def loop : Nat → WKM → Option (Except String WKM)
  | 0, _ => none
  | fuel+1, s =>
    match sweep s with
    | Except.error e => some (Except.error e)
    | Except.ok (s1, transfers) =>
      let s2 :=
        { s1 with
          iterations := s1.iterations + 1,
          sweepLog := s1.sweepLog ++ [transfers] }
      if !transfers || s2.iterations == s2.maxiter then some (Except.ok s2)
      else loop fuel s2

/-- WKM.prototype.cluster.  Lcum and L stand for math.cumdist of the samples
(used only when init falls back to trace segmentation); the ghost field
energyAtStart records the total energy of the initial partition. -/
def WKM.cluster (fuel : Nat) (Lcum : List Frac) (L : Frac)
    (partition : Option (List (List Vec))) (s : WKM) : Option (Except String WKM) :=
  let s0 := if s.initialized then s else s.init none Lcum L
  let stepP : Except String WKM :=
    match partition with
    | some p => s0.setPartition p
    | none => s0.getPartition
  match stepP with
  | Except.error e => some (Except.error e)
  | Except.ok s1 =>
    match s1.computeEnergies with
    | Except.error e => some (Except.error e)
    | Except.ok s2 =>
      let s3 := { s2 with energyAtStart := s2.totalenergy }
      if s3.numclusters < 2 then some (Except.ok s3)
      else
        match loop fuel s3 with
        | none => none
        | some (Except.error e) => some (Except.error e)
        | some (Except.ok s4) =>
          match s4.computeEnergies with
          | Except.error e => some (Except.error e)
          | Except.ok s5 => some (Except.ok s5)

/-- Evaluate a boolean observation on the final state of a terminating,
error-free run (false otherwise). -/
def runOutcome (o : Option (Except String WKM)) (f : WKM → Bool) : Bool :=
  match o with
  | some (Except.ok t) => f t
  | _ => false

/-- Evaluate a boolean observation on the result of a non-failing partition
or energy operation (false on error). -/
def exceptCheck (e : Except String WKM) (f : WKM → Bool) : Bool :=
  match e with
  | Except.ok t => f t
  | _ => false

/-- Shorthand for a one-dimensional sample. -/
def i1 (k : Int) : Vec := [Frac.ofInt k]

/-- Value equality of vectors, coordinate by coordinate. -/
def vecVeq (u v : Vec) : Bool :=
  u.length == v.length && (List.zipWith Frac.veq u v).all id

/-- The acceptance decision the specification describes for a logged
candidate evaluation: J1 and J2 both computed from the sizes current at
evaluation time (in particular J2 from curLen, the current size of segment
j), accepting when J1 - J2 < 0 and segment j retains a member. -/
def claimedAccept (r : CandRec) : Bool :=
  decide (Frac.ofNat r.m / (Frac.ofNat r.m + Frac.ofNat 1) * sqL2 r.sample r.centb -
    Frac.ofNat r.curLen / (Frac.ofNat r.curLen - Frac.ofNat 1) * sqL2 r.sample r.centj <
    Frac.ofNat 0) && decide (1 < r.curLen)

/-- Disagreement between the decision the code took and the decision the
claim describes (current-size J2). -/
def c2Mismatch (r : CandRec) : Bool := claimedAccept r != r.accepted

/-- Disagreement between an incrementally updated centroid pair and the
exact means of the segments' memberships after the move. -/
def movedCentroidsMismatch (r : MoveRec) : Bool :=
  !(vecVeq r.newCentj (clustercenter (r.newClusters.getD r.j []))) ||
  !(vecVeq r.newCentBest (clustercenter (r.newClusters.getD r.best [])))

/-- Concrete input refuting C1: the 1-D sequence 0,0,3,0,2,2,2 with three
segments and threshold 0. -/
def sC1 : WKM := mkWKM [i1 0, i1 0, i1 3, i1 0, i1 2, i1 2, i1 2] 3 (Frac.ofNat 0)

/-- Cumulative arc lengths of the sC1 samples. -/
def lcC1 : List Frac := [Frac.ofNat 0, Frac.ofNat 0, Frac.ofNat 3, Frac.ofNat 6,
  Frac.ofNat 8, Frac.ofNat 8, Frac.ofNat 8]

/-- Concrete input refuting the current-size reading of C2: the 1-D sequence
1,1,0,3,0 with two segments and threshold 0. -/
def sC2 : WKM := mkWKM [i1 1, i1 1, i1 0, i1 3, i1 0] 2 (Frac.ofNat 0)

/-- Cumulative arc lengths of the sC2 samples. -/
def lcC2 : List Frac := [Frac.ofNat 0, Frac.ofNat 0, Frac.ofNat 1, Frac.ofNat 4, Frac.ofNat 7]

/-- Concrete input refuting C3: the 1-D sequence 0,0,0,0,1 with two segments
and threshold 0. -/
def sC3 : WKM := mkWKM [i1 0, i1 0, i1 0, i1 0, i1 1] 2 (Frac.ofNat 0)

/-- Cumulative arc lengths of the sC3 samples. -/
def lcC3 : List Frac := [Frac.ofNat 0, Frac.ofNat 0, Frac.ofNat 0, Frac.ofNat 0, Frac.ofNat 1]

/-- Concrete input refuting C9: the 1-D sequence 0,1,1,2,4 with two segments
and threshold 0. -/
def sC9 : WKM := mkWKM [i1 0, i1 1, i1 1, i1 2, i1 4] 2 (Frac.ofNat 0)

/-- Cumulative arc lengths of the sC9 samples. -/
def lcC9 : List Frac := [Frac.ofNat 0, Frac.ofNat 1, Frac.ofNat 1, Frac.ofNat 2, Frac.ofNat 4]

/-- Concrete two-segment state with exact stored centroids (segment 0 holds
the 1-D samples 0 and 2 with centroid 1, segment 1 holds the sample 2 with
centroid 2), used to instantiate the exactness of the incremental mean
update. -/
def sW3 : WKM :=
  { samples := [[Frac.ofInt 0], [Frac.ofInt 2], [Frac.ofInt 2]], numclusters := 2,
    threshold := Frac.ofNat 0, dimensions := 1, maxiter := 100, initialized := true,
    boundaries := [0, 2], clusters := [[[Frac.ofInt 0], [Frac.ofInt 2]], [[Frac.ofInt 2]]],
    centroids := [[Frac.ofNat 1], [Frac.ofNat 2]], localenergy := [0, 0],
    totalenergy := 0, iterations := 0, numtransfers := 0, cost := 0,
    energyAtStart := 0, evalLog := [], moveLog := [], sweepLog := [] }

/-- Cumulative arc lengths of the 1-D samples 0, 1, 1, 10. -/
def lcC5 : List Frac := [Frac.ofNat 0, Frac.ofNat 1, Frac.ofNat 1, Frac.ofNat 10]

/-- Instance over the 1-D samples 0, 1, 1, 10 with three segments and
threshold 0. -/
def sC5base : WKM := mkWKM [i1 0, i1 1, i1 1, i1 10] 3 (Frac.ofNat 0)

/-- The sC5base instance freshly initialized by trace segmentation: its
boundary list [0, 3, 4] runs past the sample range. -/
def sC5ts : WKM := sC5base.init (some "ts") lcC5 (Frac.ofNat 10)

/-- The sC5base instance freshly initialized by equal-count resampling. -/
def sC5eq : WKM := sC5base.init (some "eq") lcC5 (Frac.ofNat 10)

/-- Evaluate the error outcome of a run: the raised message, if any. -/
def errOutcome (o : Option (Except String WKM)) : Option String :=
  match o with
  | some (Except.error e) => some e
  | _ => none

theorem rq_nonneg (N M i : Nat) : 0 ≤ rq N M i := Int.ofNat_nonneg _

theorem rq_mono (N M i : Nat) : rq N M i ≤ rq N M (i + 1) := by
  have h : (i + 1) * M / (N + 1) ≤ (i + 2) * M / (N + 1) :=
    Nat.div_le_div_right (Nat.mul_le_mul_right M (by omega))
  unfold rq
  exact_mod_cast h

theorem rq_step (N M i : Nat) (hMN : M ≤ N) : rq N M (i + 1) ≤ rq N M i + 1 := by
  have hM0 : M / (N + 1) = 0 := Nat.div_eq_of_lt (by omega)
  have h : (i + 2) * M / (N + 1) ≤ (i + 1) * M / (N + 1) + 1 := by
    have he : (i + 2) * M = (i + 1) * M + M := by ring
    rw [he, Nat.add_div (by omega : 0 < N + 1), hM0]
    split <;> omega
  unfold rq
  exact_mod_cast h

theorem rq_zero (N M : Nat) (hMN : M ≤ N) : rq N M 0 = 0 := by
  have h : 1 * M / (N + 1) = 0 := by
    rw [Nat.one_mul]
    exact Nat.div_eq_of_lt (by omega)
  show ((1 * M / (N + 1) : Nat) : Int) = 0
  rw [h]
  rfl

theorem rq_last (N M : Nat) (hM : 1 ≤ M) (hMN : M ≤ N) : rq N M (N - 1) = (M : Int) - 1 := by
  obtain ⟨m, rfl⟩ : ∃ m, M = m + 1 := ⟨M - 1, by omega⟩
  have he : (N - 1 + 1) = N := by omega
  have hq : N * (m + 1) / (N + 1) = m := by
    apply Nat.div_eq_of_lt_le
    · calc m * (N + 1) = m * N + m := by ring
        _ ≤ m * N + N := by omega
        _ = N * (m + 1) := by ring
    · calc N * (m + 1) = m * N + N := by ring
        _ < m * N + m + (N + 1) := by omega
        _ = (m + 1) * (N + 1) := by ring
  show ((_ * _ / _ : Nat) : Int) = _
  rw [he, hq]
  omega

/-- The running invariant of the resample loop: after the first k iterations
(1 ≤ k ≤ N) the recorded list starts at 0, is strictly increasing, stays
below k, and has exactly rq(k-1)+1 entries, rq(k-1) being the last recorded
quotient. -/
theorem resampleAux_inv (N M : Nat) (hM : 1 ≤ M) (hMN : M ≤ N) :
    ∀ k, k ≤ N → 1 ≤ k →
      (((List.range k).foldl (resampleStep N M) ([], -1)).1.head? = some 0 ∧
       List.Chain' (· < ·) ((List.range k).foldl (resampleStep N M) ([], -1)).1 ∧
       (∀ x ∈ ((List.range k).foldl (resampleStep N M) ([], -1)).1, x < k)) ∧
      ((List.range k).foldl (resampleStep N M) ([], -1)).2 = rq N M (k - 1) ∧
      ((((List.range k).foldl (resampleStep N M) ([], -1)).1.length : Int) =
        rq N M (k - 1) + 1) := by
  intro k
  induction k with
  | zero => omega
  | succ k ih =>
    intro hkN hk1
    by_cases hk0 : k = 0
    · subst hk0
      have h0 : rq N M 0 = 0 := rq_zero N M hMN
      simp only [List.range_succ, List.range_zero, List.nil_append, List.foldl_cons,
        List.foldl_nil, resampleStep, h0]
      norm_num
    · have hk : 1 ≤ k := by omega
      obtain ⟨⟨ihh, ihc, ihlt⟩, ihb, ihlen⟩ := ih (by omega) hk
      set st := (List.range k).foldl (resampleStep N M) ([], -1) with hst
      have hunf : (List.range (k + 1)).foldl (resampleStep N M) ([], -1) =
          resampleStep N M st k := by
        rw [List.range_succ, List.foldl_append, List.foldl_cons, List.foldl_nil]
      have hkm : k - 1 + 1 = k := by omega
      have hmono : rq N M (k - 1) ≤ rq N M k := by
        have := rq_mono N M (k - 1)
        rwa [hkm] at this
      have hstep : rq N M k ≤ rq N M (k - 1) + 1 := by
        have := rq_step N M (k - 1) hMN
        rwa [hkm] at this
      have hne : st.1 ≠ [] := by
        intro hnil
        rw [hnil] at ihlen
        have := rq_nonneg N M (k - 1)
        simp at ihlen
        omega
      rw [hunf]
      unfold resampleStep
      by_cases hlt : st.2 < rq N M k
      · rw [if_pos hlt]
        have heq : rq N M k = rq N M (k - 1) + 1 := by omega
        refine ⟨⟨?_, ?_, ?_⟩, ?_, ?_⟩
        · obtain ⟨y, ys, hys⟩ := List.exists_cons_of_ne_nil hne
          rw [hys]
          rw [hys] at ihh
          simpa using ihh
        · rw [List.chain'_append]
          refine ⟨ihc, List.chain'_singleton _, ?_⟩
          intro x hx y hy
          simp at hy
          subst hy
          exact ihlt x (List.mem_of_mem_getLast? hx)
        · intro x hx
          rcases List.mem_append.mp hx with h | h
          · exact Nat.lt_succ_of_lt (ihlt x h)
          · simp at h
            omega
        · simpa using heq
        · simp only [List.length_append, List.length_singleton, Nat.succ_sub_one]
          push_cast
          omega
      · rw [if_neg hlt]
        have heq : rq N M k = rq N M (k - 1) := by omega
        refine ⟨⟨ihh, ihc, ?_⟩, ?_, ?_⟩
        · intro x hx
          exact Nat.lt_succ_of_lt (ihlt x hx)
        · simpa using ihb.trans heq.symm
        · simp only [Nat.succ_sub_one]
          rw [ihlen, heq]

theorem resampleBoundaries_head (N M : Nat) (hM : 1 ≤ M) (hMN : M ≤ N) (hN : 1 ≤ N) :
    (resampleBoundaries N M).head? = some 0 :=
  ((resampleAux_inv N M hM hMN N le_rfl hN).1).1

theorem resampleBoundaries_chain (N M : Nat) (hM : 1 ≤ M) (hMN : M ≤ N) (hN : 1 ≤ N) :
    List.Chain' (· < ·) (resampleBoundaries N M) :=
  ((resampleAux_inv N M hM hMN N le_rfl hN).1).2.1

theorem resampleBoundaries_lt (N M : Nat) (hM : 1 ≤ M) (hMN : M ≤ N) (hN : 1 ≤ N) :
    ∀ x ∈ resampleBoundaries N M, x < N :=
  ((resampleAux_inv N M hM hMN N le_rfl hN).1).2.2

theorem resampleBoundaries_length (N M : Nat) (hM : 1 ≤ M) (hMN : M ≤ N) (hN : 1 ≤ N) :
    (resampleBoundaries N M).length = M := by
  have h := (resampleAux_inv N M hM hMN N le_rfl hN).2.2
  rw [rq_last N M hM hMN] at h
  have : ((resampleBoundaries N M).length : Int) = M := by
    unfold resampleBoundaries resampleAux
    omega
  exact_mod_cast this

theorem Frac.nonneg_num_of_toRat (a : Frac) (h : 0 ≤ a.toRat) : 0 ≤ a.num := by
  have hd : (0 : ℚ) < (a.den : ℚ) := by exact_mod_cast a.hden
  have := (div_nonneg_iff.mp h).resolve_right (fun hc => absurd hc.2 (not_le.mpr hd))
  exact_mod_cast this.1

theorem tsAdvance_ge (Lcum : List Frac) (fact : Frac) (bs : List Nat) :
    ∀ fuel i, i ≤ tsAdvance Lcum fact bs i fuel := by
  intro fuel
  induction fuel with
  | zero => intro i; exact le_rfl
  | succ fuel ih =>
    intro i
    unfold tsAdvance
    split
    · exact le_trans (by omega) (ih (i + 1))
    · exact le_rfl

theorem tsAdvance_stop (Lcum : List Frac) (fact : Frac) (bs : List Nat) :
    ∀ fuel i, (∃ d, d < fuel ∧ tsCond Lcum fact bs (i + d) = false) →
      tsCond Lcum fact bs (tsAdvance Lcum fact bs i fuel) = false := by
  intro fuel
  induction fuel with
  | zero => intro i ⟨d, hd, _⟩; omega
  | succ fuel ih =>
    intro i ⟨d, hd, hgood⟩
    unfold tsAdvance
    by_cases hc : tsCond Lcum fact bs i = true
    · rw [if_pos hc]
      apply ih
      rcases Nat.eq_zero_or_pos d with h0 | h0
      · subst h0
        simp at hgood
        rw [hgood] at hc
        cases hc
      · refine ⟨d - 1, by omega, ?_⟩
        have he : i + 1 + (d - 1) = i + d := by omega
        rw [he]
        exact hgood
    · rw [if_neg hc]
      revert hc
      cases tsCond Lcum fact bs i <;> simp

/-- In any window of bs.length + 1 consecutive naturals one of them is not a
member of bs. -/
theorem exists_nonmember (bs : List Nat) (L0 : Nat) :
    ∃ x, L0 ≤ x ∧ x ≤ L0 + bs.length ∧ x ∉ bs := by
  by_contra hcon
  push_neg at hcon
  have hsub : (Finset.range (bs.length + 1)).image (fun d => L0 + d) ⊆ bs.toFinset := by
    intro x hx
    rcases Finset.mem_image.mp hx with ⟨d, hd, rfl⟩
    exact List.mem_toFinset.mpr
      (hcon _ (by omega) (by have := Finset.mem_range.mp hd; omega))
  have hcard := Finset.card_le_card hsub
  rw [Finset.card_image_of_injective _ (add_right_injective L0), Finset.card_range] at hcard
  have htf := bs.toFinset_card_le
  omega

/-- The fuel passed to tsAdvance by tsStep is always sufficient: the returned
index genuinely fails the loop condition, exactly as when the JS while loop
stops. -/
theorem tsAdvance_not_cond (Lcum : List Frac) (fact : Frac) (bs : List Nat) (i : Nat) :
    tsCond Lcum fact bs (tsAdvance Lcum fact bs i (Lcum.length + bs.length + 2)) = false := by
  apply tsAdvance_stop
  obtain ⟨x, hx1, hx2, hx3⟩ := exists_nonmember bs (max i Lcum.length)
  refine ⟨x - i, by omega, ?_⟩
  have hxi : i + (x - i) = x := by omega
  rw [hxi]
  unfold tsCond
  have h1 : decide (x < Lcum.length) = false := by
    simp only [decide_eq_false_iff_not, not_lt]
    omega
  have h2 : bs.contains x = false := by simpa using hx3
  rw [h1]
  simp only [Bool.false_and, Bool.false_or]
  exact h2

theorem tsAdvance_of_not_cond (Lcum : List Frac) (fact : Frac) (bs : List Nat) (i : Nat) :
    ∀ fuel, tsCond Lcum fact bs i = false → tsAdvance Lcum fact bs i fuel = i := by
  intro fuel hc
  cases fuel with
  | zero => rfl
  | succ fuel =>
    unfold tsAdvance
    rw [hc]
    simp

/-- With fact = 0 * incr and no recorded boundary yet, the TS while loop does
not advance past index 0 (the cumulative lengths are non-negative). -/
theorem tsCond_zero_fact (Lcum : List Frac) (incr : Frac)
    (hpos : ∀ x ∈ Lcum, 0 ≤ x.toRat) :
    tsCond Lcum (Frac.ofNat 0 * incr) [] 0 = false := by
  unfold tsCond
  cases hL : Lcum with
  | nil => simp
  | cons y ys =>
    have hy : 0 ≤ y.num := by
      apply Frac.nonneg_num_of_toRat
      apply hpos
      rw [hL]
      exact List.mem_cons_self y ys
    have hlt : ¬ (List.getD (y :: ys) 0 0 < Frac.ofNat 0 * incr) := by
      show ¬ Frac.lt y (Frac.ofNat 0 * incr)
      unfold Frac.lt
      have hnum : (Frac.ofNat 0 * incr).num = 0 := by
        show ((0 : Nat) : Int) * incr.num = 0
        simp
      rw [hnum]
      push_neg
      simp only [zero_mul]
      positivity
    rw [decide_eq_false hlt]
    simp

/-- The running invariant of the outer TS loop: the recorded boundaries form
a strictly increasing list of length k starting at 0, all bounded by the
current index, which is itself the last recorded boundary. -/
theorem tsBoundaries_inv (Lcum : List Frac) (incr : Frac)
    (hpos : ∀ x ∈ Lcum, 0 ≤ x.toRat) :
    ∀ k,
      List.Chain' (· < ·) ((List.range k).foldl (tsStep Lcum incr) ([], 0)).1 ∧
      (∀ b ∈ ((List.range k).foldl (tsStep Lcum incr) ([], 0)).1,
        b ≤ ((List.range k).foldl (tsStep Lcum incr) ([], 0)).2) ∧
      (1 ≤ k → ((List.range k).foldl (tsStep Lcum incr) ([], 0)).1.head? = some 0) ∧
      ((List.range k).foldl (tsStep Lcum incr) ([], 0)).1.length = k := by
  intro k
  induction k with
  | zero => simp
  | succ k ih =>
    obtain ⟨ihc, ihb, ihh, ihlen⟩ := ih
    set st := (List.range k).foldl (tsStep Lcum incr) ([], 0) with hst
    have hunf : (List.range (k + 1)).foldl (tsStep Lcum incr) ([], 0) =
        tsStep Lcum incr st k := by
      rw [List.range_succ, List.foldl_append, List.foldl_cons, List.foldl_nil]
    rw [hunf]
    by_cases hk0 : k = 0
    · subst hk0
      have hst0 : st = ([], 0) := hst
      rw [hst0]
      unfold tsStep
      dsimp only
      have h0 : ∀ fuel, tsAdvance Lcum (Frac.ofNat 0 * incr) [] 0 fuel = 0 :=
        fun fuel => tsAdvance_of_not_cond _ _ _ _ fuel (tsCond_zero_fact Lcum incr hpos)
      rw [h0]
      refine ⟨by simp, by simp, fun _ => rfl, by simp⟩
    · have hne : st.1 ≠ [] := by
        intro hnil
        rw [hnil] at ihlen
        simp at ihlen
        omega
      unfold tsStep
      dsimp only
      set i2 := tsAdvance Lcum (Frac.ofNat k * incr) st.1 st.2 (Lcum.length + st.1.length + 2)
        with hi2
      have hge : st.2 ≤ i2 := tsAdvance_ge _ _ _ _ _
      have hnc : tsCond Lcum (Frac.ofNat k * incr) st.1 i2 = false :=
        tsAdvance_not_cond _ _ _ _
      have hnotmem : i2 ∉ st.1 := by
        unfold tsCond at hnc
        rcases Bool.or_eq_false_iff.mp hnc with ⟨_, h2⟩
        simpa using h2
      have hlt : ∀ b ∈ st.1, b < i2 := by
        intro b hb
        have h1 : b ≤ i2 := le_trans (ihb b hb) hge
        have h2 : b ≠ i2 := by
          intro heq
          exact hnotmem (heq ▸ hb)
        omega
      refine ⟨?_, ?_, ?_, ?_⟩
      · rw [List.chain'_append]
        refine ⟨ihc, List.chain'_singleton _, ?_⟩
        intro x hx y hy
        simp at hy
        subst hy
        exact hlt x (List.mem_of_mem_getLast? hx)
      · intro b hb
        rcases List.mem_append.mp hb with h | h
        · exact le_of_lt (hlt b h)
        · simp at h
          omega
      · intro _
        obtain ⟨y, ys, hys⟩ := List.exists_cons_of_ne_nil hne
        rw [hys]
        have := ihh (by omega)
        rw [hys] at this
        simpa using this
      · simp [ihlen]

theorem tsBoundaries_chain (Lcum : List Frac) (L : Frac) (M : Nat)
    (hpos : ∀ x ∈ Lcum, 0 ≤ x.toRat) :
    List.Chain' (· < ·) (tsBoundaries Lcum L M) :=
  (tsBoundaries_inv Lcum (L / Frac.ofNat M) hpos M).1

theorem tsBoundaries_head (Lcum : List Frac) (L : Frac) (M : Nat)
    (hpos : ∀ x ∈ Lcum, 0 ≤ x.toRat) (hM : 1 ≤ M) :
    (tsBoundaries Lcum L M).head? = some 0 :=
  (tsBoundaries_inv Lcum (L / Frac.ofNat M) hpos M).2.2.1 hM

theorem tsBoundaries_length (Lcum : List Frac) (L : Frac) (M : Nat)
    (hpos : ∀ x ∈ Lcum, 0 ≤ x.toRat) :
    (tsBoundaries Lcum L M).length = M :=
  (tsBoundaries_inv Lcum (L / Frac.ofNat M) hpos M).2.2.2

theorem listSlice_length (xs : List Vec) (a b : Nat) :
    (listSlice xs a b).length = min (b - a) (xs.length - a) := by
  unfold listSlice
  simp

/-- The boundary bookkeeping invariant: one boundary per segment, strictly
increasing, all inside the sample range. -/
def boundariesGood (s : WKM) : Prop :=
  s.boundaries.length = s.numclusters ∧
  List.Chain' (· < ·) s.boundaries ∧
  ∀ x ∈ s.boundaries, x < s.samples.length

/-- The full loop invariant: good boundaries, the stored clusters are exactly
the derived partition, and there is at least one segment. -/
def WKM.WF (s : WKM) : Prop :=
  boundariesGood s ∧
  s.clusters = (List.range s.numclusters).map s.getClusterSamples ∧
  1 ≤ s.numclusters

theorem set_head? (l : List Nat) (j v : Nat) (hj : 0 < j) :
    (l.set j v).head? = l.head? := by
  cases l with
  | nil => rfl
  | cons a t =>
    obtain ⟨k, rfl⟩ : ∃ k, j = k + 1 := ⟨j - 1, by omega⟩
    rfl

/-- Under good boundaries every derived segment is non-empty. -/
theorem getClusterSamples_len_pos (s : WKM) (hg : boundariesGood s)
    (j : Nat) (hj : j < s.numclusters) : 0 < (s.getClusterSamples j).length := by
  obtain ⟨hlen, hch, hlt⟩ := hg
  have hjl : j < s.boundaries.length := by omega
  have hbj : s.boundaries.getD j 0 = s.boundaries[j] := List.getD_eq_getElem _ _ hjl
  have hbN : s.boundaries[j] < s.samples.length := hlt _ (List.getElem_mem hjl)
  unfold WKM.getClusterSamples
  rw [listSlice_length, hbj]
  by_cases hj1 : j + 1 < s.numclusters
  · have hj1l : j + 1 < s.boundaries.length := by omega
    have hbj1 : s.boundaries.getD (j+1) 0 = s.boundaries[j+1] := List.getD_eq_getElem _ _ hj1l
    have hchg := List.chain'_iff_get.mp hch j (by omega)
    simp only [List.get_eq_getElem] at hchg
    rw [if_pos hj1, hbj1]
    omega
  · rw [if_neg hj1]
    omega

theorem getPartition_ok (s : WKM)
    (h : ∀ j < s.numclusters, 0 < (s.getClusterSamples j).length) :
    s.getPartition =
      Except.ok { s with clusters := (List.range s.numclusters).map s.getClusterSamples } := by
  unfold WKM.getPartition
  have hf : (List.range s.numclusters).find? (fun j => (s.getClusterSamples j).isEmpty) = none := by
    rw [List.find?_eq_none]
    intro j hj
    have hp := h j (List.mem_range.mp hj)
    simp only [List.isEmpty_iff, Bool.not_eq_true]
    exact List.length_pos.mp hp
  rw [hf]

theorem getClusterSamples_congr (s t : WKM) (hsam : t.samples = s.samples)
    (hM : t.numclusters = s.numclusters) (hb : t.boundaries = s.boundaries) :
    t.getClusterSamples = s.getClusterSamples := by
  funext j
  unfold WKM.getClusterSamples
  rw [hsam, hM, hb]

theorem WF_of_fields (s t : WKM) (hWF : s.WF) (hsam : t.samples = s.samples)
    (hM : t.numclusters = s.numclusters) (hb : t.boundaries = s.boundaries)
    (hc : t.clusters = s.clusters) : t.WF := by
  obtain ⟨⟨h1, h2, h3⟩, h4, h5⟩ := hWF
  have hcs := getClusterSamples_congr s t hsam hM hb
  exact ⟨⟨by rw [hb, hM]; exact h1, by rw [hb]; exact h2, by rw [hb, hsam]; exact h3⟩,
    by rw [hc, h4, hM, hcs], by omega⟩

theorem WF_clusters_getD (s : WKM) (hWF : s.WF) (j : Nat) (hj : j < s.numclusters) :
    s.clusters.getD j [] = s.getClusterSamples j := by
  rw [hWF.2.1]
  have hjl : j < ((List.range s.numclusters).map s.getClusterSamples).length := by
    simpa using hj
  rw [List.getD_eq_getElem _ _ hjl]
  simp

/-- If segment j currently holds more than one member then there is room to
shift its boundary: the gap to the segment end is at least two. -/
theorem gap_of_len (s : WKM) (hg : boundariesGood s) (j : Nat) (hj : j < s.numclusters)
    (hlen : 1 < (s.getClusterSamples j).length) :
    s.boundaries.getD j 0 + 2 ≤
      (if j + 1 < s.numclusters then s.boundaries.getD (j + 1) 0 else s.samples.length) ∧
    s.boundaries.getD j 0 + 2 ≤ s.samples.length := by
  unfold WKM.getClusterSamples at hlen
  rw [listSlice_length] at hlen
  by_cases hj1 : j + 1 < s.numclusters
  · rw [if_pos hj1] at hlen ⊢
    omega
  · rw [if_neg hj1] at hlen ⊢
    omega

/-- Shifting boundary j one position right keeps the boundary list good,
provided segment j has at least two members. -/
theorem set_incr_good (s : WKM) (hg : boundariesGood s) (j : Nat)
    (hj : j < s.numclusters) (hlen : 1 < (s.getClusterSamples j).length) :
    (s.boundaries.set j (s.boundaries.getD j 0 + 1)).length = s.numclusters ∧
    List.Chain' (· < ·) (s.boundaries.set j (s.boundaries.getD j 0 + 1)) ∧
    ∀ x ∈ s.boundaries.set j (s.boundaries.getD j 0 + 1), x < s.samples.length := by
  obtain ⟨hgap, hgN⟩ := gap_of_len s hg j hj hlen
  obtain ⟨hl, hch, hlt⟩ := hg
  have hjl : j < s.boundaries.length := by omega
  have hget : s.boundaries.getD j 0 = s.boundaries[j] := List.getD_eq_getElem _ _ hjl
  refine ⟨by simpa using hl, ?_, ?_⟩
  · rw [List.chain'_iff_get] at hch ⊢
    intro i hi
    simp only [List.length_set] at hi
    have hi1 : i < s.boundaries.length := by omega
    have hi2 : i + 1 < s.boundaries.length := by omega
    have hcg := hch i (by simpa using hi)
    simp only [List.get_eq_getElem] at hcg ⊢
    by_cases hij : j = i
    · subst hij
      rw [List.getElem_set_self (by simpa using hjl)]
      have hij1 : j ≠ j + 1 := by omega
      rw [List.getElem_set_ne hij1]
      have hj1M : j + 1 < s.numclusters := by omega
      rw [if_pos hj1M] at hgap
      have : s.boundaries.getD (j+1) 0 = s.boundaries[j+1] := List.getD_eq_getElem _ _ hi2
      omega
    · rw [List.getElem_set_ne hij]
      by_cases hij1 : j = i + 1
      · subst hij1
        rw [List.getElem_set_self (by simpa using hjl)]
        omega
      · rw [List.getElem_set_ne hij1]
        exact hcg
  · intro x hx
    rcases List.mem_or_eq_of_mem_set hx with h | h
    · exact hlt x h
    · omega

/-- Shifting boundary j+1 one position left keeps the boundary list good,
provided segment j has at least two members. -/
theorem set_decr_good (s : WKM) (hg : boundariesGood s) (j : Nat)
    (hj1 : j + 1 < s.numclusters) (hlen : 1 < (s.getClusterSamples j).length) :
    (s.boundaries.set (j+1) (s.boundaries.getD (j+1) 0 - 1)).length = s.numclusters ∧
    List.Chain' (· < ·) (s.boundaries.set (j+1) (s.boundaries.getD (j+1) 0 - 1)) ∧
    ∀ x ∈ s.boundaries.set (j+1) (s.boundaries.getD (j+1) 0 - 1), x < s.samples.length := by
  obtain ⟨hgap, hgN⟩ := gap_of_len s hg j (by omega) hlen
  rw [if_pos hj1] at hgap
  obtain ⟨hl, hch, hlt⟩ := hg
  have hjl : j + 1 < s.boundaries.length := by omega
  have hj0l : j < s.boundaries.length := by omega
  have hget : s.boundaries.getD (j+1) 0 = s.boundaries[j+1] := List.getD_eq_getElem _ _ hjl
  have hget0 : s.boundaries.getD j 0 = s.boundaries[j] := List.getD_eq_getElem _ _ hj0l
  refine ⟨by simpa using hl, ?_, ?_⟩
  · rw [List.chain'_iff_get] at hch ⊢
    intro i hi
    simp only [List.length_set] at hi
    have hi1 : i < s.boundaries.length := by omega
    have hi2 : i + 1 < s.boundaries.length := by omega
    have hcg := hch i (by simpa using hi)
    simp only [List.get_eq_getElem] at hcg ⊢
    by_cases hij : j + 1 = i
    · subst hij
      rw [List.getElem_set_self (by simpa using hjl),
        List.getElem_set_ne (by omega : j + 1 ≠ (j + 1) + 1)]
      have hcg2 := hch (j + 1) (by omega)
      simp only [List.get_eq_getElem] at hcg2
      omega
    · rw [List.getElem_set_ne hij]
      by_cases hij1 : j = i
      · subst hij1
        rw [List.getElem_set_self (by simpa using hjl)]
        omega
      · rw [List.getElem_set_ne (by omega : j + 1 ≠ i + 1)]
        exact hcg
  · intro x hx
    rcases List.mem_or_eq_of_mem_set hx with h | h
    · exact hlt x h
    · have := hlt _ (List.getElem_mem hjl)
      omega

/-- Fields of the instance state that a scan never modifies. -/
def scanPreserve (s t : WKM) : Prop :=
  t.samples = s.samples ∧ t.numclusters = s.numclusters ∧ t.threshold = s.threshold ∧
  t.maxiter = s.maxiter ∧ t.iterations = s.iterations ∧ t.sweepLog = s.sweepLog

theorem scanPreserve_refl (s : WKM) : scanPreserve s s := ⟨rfl, rfl, rfl, rfl, rfl, rfl⟩

theorem scanPreserve_trans (s t u : WKM) (h1 : scanPreserve s t) (h2 : scanPreserve t u) :
    scanPreserve s u := by
  obtain ⟨p1, p2, p3, p4, p5, p6⟩ := h1
  obtain ⟨q1, q2, q3, q4, q5, q6⟩ := h2
  exact ⟨q1.trans p1, q2.trans p2, q3.trans p3, q4.trans p4, q5.trans p5, q6.trans p6⟩

/-- One candidate evaluation never raises an error from a well-formed state
and preserves well-formedness, the untouched fields, and the first boundary;
a rejected candidate leaves the boundaries unchanged. -/
theorem scanEval_ok (s : WKM) (j b n : Nat) (sample : Vec) (hWF : s.WF)
    (hjM : j < s.numclusters)
    (hadj : b + 1 = j ∨ (b = j + 1 ∧ b < s.numclusters)) :
    ∃ s' acc, scanEval s j b n sample = Except.ok (s', acc) ∧ s'.WF ∧ scanPreserve s s' ∧
      s'.boundaries.head? = s.boundaries.head? ∧
      (acc = false → s'.boundaries = s.boundaries) := by
  unfold scanEval
  by_cases hacc : acceptTest s j b n sample = true
  · rw [if_pos hacc]
    set s0 : WKM :=
      { s with
        cost := s.cost + 1,
        evalLog := s.evalLog ++ [candRecOf s j b n sample] } with hs0
    have hWF0 : s0.WF := WF_of_fields s s0 hWF rfl rfl rfl rfl
    have hcur : 1 < (s.getClusterSamples j).length := by
      have h2 := ((Bool.and_eq_true _ _).mp hacc).2
      have h3 := of_decide_eq_true h2
      have h4 : s.clusters.getD j [] = s.getClusterSamples j :=
        WF_clusters_getD s hWF j hjM
      rw [h4] at h3
      exact h3
    rcases hadj with hleft | ⟨hright, hbM⟩
    · have hblt : b < j := by omega
      have hbnd : (moveState s0 j b n sample).boundaries =
          s.boundaries.set j (s.boundaries.getD j 0 + 1) := by
        show (if b < j then s.boundaries.set j (s.boundaries.getD j 0 + 1)
              else s.boundaries.set b (s.boundaries.getD b 0 - 1)) = _
        rw [if_pos hblt]
      have hgood := set_incr_good s hWF.1 j hjM hcur
      have hgoodM : boundariesGood (moveState s0 j b n sample) := by
        refine ⟨?_, ?_, ?_⟩ <;> rw [hbnd]
        · exact hgood.1
        · exact hgood.2.1
        · exact hgood.2.2
      have hne : ∀ j' < (moveState s0 j b n sample).numclusters,
          0 < ((moveState s0 j b n sample).getClusterSamples j').length :=
        fun j' hj' => getClusterSamples_len_pos _ hgoodM j' hj'
      have hGP := getPartition_ok (moveState s0 j b n sample) hne
      rw [hGP]
      refine ⟨_, _, rfl, ?_, ?_, ?_, ?_⟩
      · exact ⟨⟨hgoodM.1, hgoodM.2.1, hgoodM.2.2⟩, rfl, hWF.2.2⟩
      · exact ⟨rfl, rfl, rfl, rfl, rfl, rfl⟩
      · show (moveState s0 j b n sample).boundaries.head? = s.boundaries.head?
        rw [hbnd]
        exact set_head? _ _ _ (by omega)
      · intro h
        exact absurd h (by simp)
    · subst hright
      have hblt : ¬ (j + 1 < j) := by omega
      have hbnd : (moveState s0 j (j + 1) n sample).boundaries =
          s.boundaries.set (j + 1) (s.boundaries.getD (j + 1) 0 - 1) := by
        show (if j + 1 < j then s.boundaries.set j (s.boundaries.getD j 0 + 1)
              else s.boundaries.set (j + 1) (s.boundaries.getD (j + 1) 0 - 1)) = _
        rw [if_neg hblt]
      have hgood := set_decr_good s hWF.1 j (by omega) hcur
      have hgoodM : boundariesGood (moveState s0 j (j + 1) n sample) := by
        refine ⟨?_, ?_, ?_⟩ <;> rw [hbnd]
        · exact hgood.1
        · exact hgood.2.1
        · exact hgood.2.2
      have hne : ∀ j' < (moveState s0 j (j + 1) n sample).numclusters,
          0 < ((moveState s0 j (j + 1) n sample).getClusterSamples j').length :=
        fun j' hj' => getClusterSamples_len_pos _ hgoodM j' hj'
      have hGP := getPartition_ok (moveState s0 j (j + 1) n sample) hne
      rw [hGP]
      refine ⟨_, _, rfl, ?_, ?_, ?_, ?_⟩
      · exact ⟨⟨hgoodM.1, hgoodM.2.1, hgoodM.2.2⟩, rfl, hWF.2.2⟩
      · exact ⟨rfl, rfl, rfl, rfl, rfl, rfl⟩
      · show (moveState s0 j (j + 1) n sample).boundaries.head? = s.boundaries.head?
        rw [hbnd]
        exact set_head? _ _ _ (by omega)
      · intro h
        exact absurd h (by simp)
  · rw [if_neg hacc]
    refine ⟨_, _, rfl, WF_of_fields s _ hWF rfl rfl rfl rfl,
      ⟨rfl, rfl, rfl, rfl, rfl, rfl⟩, rfl, fun _ => rfl⟩

set_option maxHeartbeats 1600000 in
theorem leftScanAux_ok (j : Nat) (pts : List Vec) (n : Nat) :
    ∀ fuel i s tr, s.WF → 0 < j → j < s.numclusters →
      ∃ s' tr', leftScanAux j pts n i fuel s tr = Except.ok (s', tr') ∧ s'.WF ∧
        scanPreserve s s' ∧ s'.boundaries.head? = s.boundaries.head? := by
  intro fuel
  induction fuel with
  | zero =>
    intro i s tr hWF _ _
    exact ⟨s, tr, rfl, hWF, scanPreserve_refl s, rfl⟩
  | succ fuel ih =>
    intro i s tr hWF hj0 hjM
    obtain ⟨s1, acc, heq, hWF1, hpres1, hhead1, _⟩ :=
      scanEval_ok s j (j - 1) n (pts.getD i []) hWF hjM (Or.inl (by omega))
    unfold leftScanAux
    rw [heq]
    cases acc with
    | true =>
      have hjM1 : j < s1.numclusters := by rw [hpres1.2.1]; exact hjM
      obtain ⟨s2, tr2, heq2, hWF2, hpres2, hhead2⟩ := ih (i + 1) s1 true hWF1 hj0 hjM1
      exact ⟨s2, tr2, heq2, hWF2, scanPreserve_trans _ _ _ hpres1 hpres2,
        hhead2.trans hhead1⟩
    | false =>
      exact ⟨s1, tr, rfl, hWF1, hpres1, hhead1⟩

set_option maxHeartbeats 1600000 in
theorem rightScanAux_ok (j : Nat) (pts : List Vec) (n : Nat) :
    ∀ fuel i s tr, s.WF → j + 1 < s.numclusters →
      ∃ s' tr', rightScanAux j pts n i fuel s tr = Except.ok (s', tr') ∧ s'.WF ∧
        scanPreserve s s' ∧ s'.boundaries.head? = s.boundaries.head? := by
  intro fuel
  induction fuel with
  | zero =>
    intro i s tr hWF _
    exact ⟨s, tr, rfl, hWF, scanPreserve_refl s, rfl⟩
  | succ fuel ih =>
    intro i s tr hWF hjM
    obtain ⟨s1, acc, heq, hWF1, hpres1, hhead1, _⟩ :=
      scanEval_ok s j (j + 1) n (pts.getD i.toNat []) hWF (by omega)
        (Or.inr ⟨rfl, by omega⟩)
    unfold rightScanAux
    rw [heq]
    cases acc with
    | true =>
      have hjM1 : j + 1 < s1.numclusters := by rw [hpres1.2.1]; exact hjM
      obtain ⟨s2, tr2, heq2, hWF2, hpres2, hhead2⟩ := ih (i - 1) s1 true hWF1 hjM1
      exact ⟨s2, tr2, heq2, hWF2, scanPreserve_trans _ _ _ hpres1 hpres2,
        hhead2.trans hhead1⟩
    | false =>
      exact ⟨s1, tr, rfl, hWF1, hpres1, hhead1⟩

set_option maxHeartbeats 1000000 in
theorem processSegment_ok (s : WKM) (tr : Bool) (j : Nat) (hWF : s.WF)
    (hjM : j < s.numclusters) :
    ∃ s' tr', processSegment s tr j = Except.ok (s', tr') ∧ s'.WF ∧
      scanPreserve s s' ∧ s'.boundaries.head? = s.boundaries.head? := by
  unfold processSegment
  dsimp only
  by_cases hn : (s.clusters.getD j []).length < 2
  · rw [if_pos hn]
    exact ⟨s, tr, rfl, hWF, scanPreserve_refl s, rfl⟩
  · rw [if_neg hn]
    by_cases hj0 : 0 < j
    · rw [if_pos hj0]
      obtain ⟨s1, tr1, heq1, hWF1, hpres1, hhead1⟩ :=
        leftScanAux_ok j (s.clusters.getD j []) (s.clusters.getD j []).length
          ((Frac.floor (Frac.ofNat (s.clusters.getD j []).length / Frac.ofNat 2 *
            (Frac.ofNat 1 - s.threshold)) + 2).toNat) 0 s tr hWF hj0 hjM
      rw [heq1]
      dsimp only
      by_cases hn2 : (s1.clusters.getD j []).length < 2
      · rw [if_pos hn2]
        exact ⟨s1, tr1, rfl, hWF1, hpres1, hhead1⟩
      · rw [if_neg hn2]
        by_cases hj1 : j + 1 < s1.numclusters
        · rw [if_pos hj1]
          obtain ⟨s2, tr2, heq2, hWF2, hpres2, hhead2⟩ :=
            rightScanAux_ok j (s1.clusters.getD j []) (s1.clusters.getD j []).length
              (((s1.clusters.getD j []).length : Int) -
                (Frac.floor (Frac.ofNat (s1.clusters.getD j []).length / Frac.ofNat 2 *
                  (Frac.ofNat 1 + s1.threshold)) - 2)).toNat
              (((s1.clusters.getD j []).length : Int) - 1) s1 tr1 hWF1 hj1
          rw [heq2]
          exact ⟨s2, tr2, rfl, hWF2, scanPreserve_trans _ _ _ hpres1 hpres2,
            hhead2.trans hhead1⟩
        · rw [if_neg hj1]
          exact ⟨s1, tr1, rfl, hWF1, hpres1, hhead1⟩
    · rw [if_neg hj0]
      dsimp only
      by_cases hn2 : (s.clusters.getD j []).length < 2
      · rw [if_pos hn2]
        exact ⟨s, tr, rfl, hWF, scanPreserve_refl s, rfl⟩
      · rw [if_neg hn2]
        by_cases hj1 : j + 1 < s.numclusters
        · rw [if_pos hj1]
          obtain ⟨s2, tr2, heq2, hWF2, hpres2, hhead2⟩ :=
            rightScanAux_ok j (s.clusters.getD j []) (s.clusters.getD j []).length
              (((s.clusters.getD j []).length : Int) -
                (Frac.floor (Frac.ofNat (s.clusters.getD j []).length / Frac.ofNat 2 *
                  (Frac.ofNat 1 + s.threshold)) - 2)).toNat
              (((s.clusters.getD j []).length : Int) - 1) s tr hWF hj1
          rw [heq2]
          exact ⟨s2, tr2, rfl, hWF2, hpres2, hhead2⟩
        · rw [if_neg hj1]
          exact ⟨s, tr, rfl, hWF, scanPreserve_refl s, rfl⟩

theorem sweepSegs_ok : ∀ (js : List Nat) (s : WKM) (tr : Bool), s.WF →
    (∀ j ∈ js, j < s.numclusters) →
    ∃ s' tr', sweepSegs js s tr = Except.ok (s', tr') ∧ s'.WF ∧ scanPreserve s s' := by
  intro js
  induction js with
  | nil =>
    intro s tr hWF _
    exact ⟨s, tr, rfl, hWF, scanPreserve_refl s⟩
  | cons j js ih =>
    intro s tr hWF hmem
    obtain ⟨s1, tr1, heq1, hWF1, hpres1, _⟩ :=
      processSegment_ok s tr j hWF (hmem j (List.mem_cons_self j js))
    obtain ⟨s2, tr2, heq2, hWF2, hpres2⟩ := ih s1 tr1 hWF1 (by
      intro x hx
      rw [hpres1.2.1]
      exact hmem x (List.mem_cons_of_mem j hx))
    refine ⟨s2, tr2, ?_, hWF2, scanPreserve_trans _ _ _ hpres1 hpres2⟩
    unfold sweepSegs
    rw [heq1]
    exact heq2

theorem sweep_ok (s : WKM) (hWF : s.WF) :
    ∃ s' tr, sweep s = Except.ok (s', tr) ∧ s'.WF ∧ scanPreserve s s' := by
  obtain ⟨s', tr, heq, hWF', hpres⟩ := sweepSegs_ok (List.range s.numclusters) s false hWF
    (fun j hj => List.mem_range.mp hj)
  exact ⟨s', tr, heq, hWF', hpres⟩

theorem getPartition_frame (s t : WKM) (h : s.getPartition = Except.ok t) :
    scanPreserve s t := by
  unfold WKM.getPartition at h
  cases hf : (List.range s.numclusters).find? (fun j => (s.getClusterSamples j).isEmpty) with
  | some j =>
    rw [hf] at h
    cases h
  | none =>
    rw [hf] at h
    injection h with h
    subst h
    exact ⟨rfl, rfl, rfl, rfl, rfl, rfl⟩

theorem scanEval_frame (s : WKM) (j b n : Nat) (sample : Vec) (s' : WKM) (acc : Bool)
    (h : scanEval s j b n sample = Except.ok (s', acc)) : scanPreserve s s' := by
  unfold scanEval at h
  by_cases hacc : acceptTest s j b n sample = true
  · rw [if_pos hacc] at h
    cases hGP : (moveState
        { s with cost := s.cost + 1, evalLog := s.evalLog ++ [candRecOf s j b n sample] }
        j b n sample).getPartition with
    | error e =>
      rw [hGP] at h
      cases h
    | ok s4 =>
      rw [hGP] at h
      have hfr := getPartition_frame _ _ hGP
      injection h with h
      injection h with h1 h2
      subst h1
      exact ⟨hfr.1, hfr.2.1, hfr.2.2.1, hfr.2.2.2.1, hfr.2.2.2.2.1, hfr.2.2.2.2.2⟩
  · rw [if_neg hacc] at h
    injection h with h
    injection h with h1 h2
    subst h1
    exact ⟨rfl, rfl, rfl, rfl, rfl, rfl⟩

theorem leftScanAux_frame (j : Nat) (pts : List Vec) (n : Nat) :
    ∀ fuel i s tr s' tr', leftScanAux j pts n i fuel s tr = Except.ok (s', tr') →
      scanPreserve s s' := by
  intro fuel
  induction fuel with
  | zero =>
    intro i s tr s' tr' h
    injection h with h
    injection h with h1 h2
    subst h1
    exact scanPreserve_refl s
  | succ fuel ih =>
    intro i s tr s' tr' h
    unfold leftScanAux at h
    cases hse : scanEval s j (j - 1) n (pts.getD i []) with
    | error e =>
      rw [hse] at h
      cases h
    | ok pr =>
      obtain ⟨s1, acc⟩ := pr
      rw [hse] at h
      have hfr1 := scanEval_frame _ _ _ _ _ _ _ hse
      cases acc with
      | true => exact scanPreserve_trans _ _ _ hfr1 (ih (i + 1) s1 true s' tr' h)
      | false =>
        injection h with h
        injection h with h1 h2
        subst h1
        exact hfr1

theorem rightScanAux_frame (j : Nat) (pts : List Vec) (n : Nat) :
    ∀ fuel i s tr s' tr', rightScanAux j pts n i fuel s tr = Except.ok (s', tr') →
      scanPreserve s s' := by
  intro fuel
  induction fuel with
  | zero =>
    intro i s tr s' tr' h
    injection h with h
    injection h with h1 h2
    subst h1
    exact scanPreserve_refl s
  | succ fuel ih =>
    intro i s tr s' tr' h
    unfold rightScanAux at h
    cases hse : scanEval s j (j + 1) n (pts.getD i.toNat []) with
    | error e =>
      rw [hse] at h
      cases h
    | ok pr =>
      obtain ⟨s1, acc⟩ := pr
      rw [hse] at h
      have hfr1 := scanEval_frame _ _ _ _ _ _ _ hse
      cases acc with
      | true => exact scanPreserve_trans _ _ _ hfr1 (ih (i - 1) s1 true s' tr' h)
      | false =>
        injection h with h
        injection h with h1 h2
        subst h1
        exact hfr1

set_option maxHeartbeats 1600000 in
theorem processSegment_frame (s : WKM) (tr : Bool) (j : Nat) (s' : WKM) (tr' : Bool)
    (h : processSegment s tr j = Except.ok (s', tr')) : scanPreserve s s' := by
  unfold processSegment at h
  dsimp only at h
  by_cases hn : (s.clusters.getD j []).length < 2
  · rw [if_pos hn] at h
    injection h with h
    injection h with h1 h2
    subst h1
    exact scanPreserve_refl s
  · rw [if_neg hn] at h
    by_cases hj0 : 0 < j
    · rw [if_pos hj0] at h
      cases hL : leftScanAux j (s.clusters.getD j []) (s.clusters.getD j []).length 0
          ((Frac.floor (Frac.ofNat (s.clusters.getD j []).length / Frac.ofNat 2 *
            (Frac.ofNat 1 - s.threshold)) + 2).toNat) s tr with
      | error e =>
        rw [hL] at h
        cases h
      | ok pr =>
        obtain ⟨s1, tr1⟩ := pr
        rw [hL] at h
        have hfr1 := leftScanAux_frame _ _ _ _ _ _ _ _ _ hL
        dsimp only at h
        by_cases hn2 : (s1.clusters.getD j []).length < 2
        · rw [if_pos hn2] at h
          injection h with h
          injection h with h1 h2
          subst h1
          exact hfr1
        · rw [if_neg hn2] at h
          by_cases hj1 : j + 1 < s1.numclusters
          · rw [if_pos hj1] at h
            exact scanPreserve_trans _ _ _ hfr1 (rightScanAux_frame _ _ _ _ _ _ _ _ _ h)
          · rw [if_neg hj1] at h
            injection h with h
            injection h with h1 h2
            subst h1
            exact hfr1
    · rw [if_neg hj0] at h
      dsimp only at h
      by_cases hn2 : (s.clusters.getD j []).length < 2
      · rw [if_pos hn2] at h
        injection h with h
        injection h with h1 h2
        subst h1
        exact scanPreserve_refl s
      · rw [if_neg hn2] at h
        by_cases hj1 : j + 1 < s.numclusters
        · rw [if_pos hj1] at h
          exact rightScanAux_frame _ _ _ _ _ _ _ _ _ h
        · rw [if_neg hj1] at h
          injection h with h
          injection h with h1 h2
          subst h1
          exact scanPreserve_refl s

theorem sweepSegs_frame : ∀ (js : List Nat) (s : WKM) (tr : Bool) (s' : WKM) (tr' : Bool),
    sweepSegs js s tr = Except.ok (s', tr') → scanPreserve s s' := by
  intro js
  induction js with
  | nil =>
    intro s tr s' tr' h
    injection h with h
    injection h with h1 h2
    subst h1
    exact scanPreserve_refl s
  | cons j js ih =>
    intro s tr s' tr' h
    unfold sweepSegs at h
    cases hp : processSegment s tr j with
    | error e =>
      rw [hp] at h
      cases h
    | ok pr =>
      obtain ⟨s1, tr1⟩ := pr
      rw [hp] at h
      exact scanPreserve_trans _ _ _ (processSegment_frame _ _ _ _ _ hp) (ih s1 tr1 s' tr' h)

theorem sweep_frame (s s' : WKM) (tr : Bool) (h : sweep s = Except.ok (s', tr)) :
    scanPreserve s s' :=
  sweepSegs_frame _ _ _ _ _ h

/-- The while loop exits within maxiter - iterations sweeps from any
well-formed state, without error; the final iteration count never exceeds
maxiter, and if no sweep was transfer-free the exit happened exactly at the
cap. -/
theorem loop_ok : ∀ fuel s, s.WF → s.iterations < s.maxiter →
    s.maxiter ≤ s.iterations + fuel →
    ∃ s', loop fuel s = some (Except.ok s') ∧ s'.WF ∧
      s'.samples = s.samples ∧ s'.numclusters = s.numclusters ∧
      s'.maxiter = s.maxiter ∧
      s.iterations < s'.iterations ∧ s'.iterations ≤ s.maxiter ∧
      (∃ fl, fl ≠ [] ∧ s'.sweepLog = s.sweepLog ++ fl) ∧
      (false ∉ s'.sweepLog → s'.iterations = s.maxiter) := by
  intro fuel
  induction fuel with
  | zero =>
    intro s _ h1 h2
    omega
  | succ fuel ih =>
    intro s hWF hlt hfuel
    obtain ⟨s1, tr, hsw, hWF1, hpres1⟩ := sweep_ok s hWF
    obtain ⟨hp1, hp2, hp3, hp4, hp5, hp6⟩ := hpres1
    unfold loop
    rw [hsw]
    dsimp only
    by_cases hex : (!tr || (s1.iterations + 1 == s1.maxiter)) = true
    · rw [if_pos hex]
      refine ⟨_, rfl, WF_of_fields s1 _ hWF1 rfl rfl rfl rfl, hp1, hp2, hp4, ?_, ?_, ?_, ?_⟩
      · show s.iterations < s1.iterations + 1
        omega
      · show s1.iterations + 1 ≤ s.maxiter
        omega
      · exact ⟨[tr], by simp, by show s1.sweepLog ++ [tr] = s.sweepLog ++ [tr]; rw [hp6]⟩
      · intro hfm
        show s1.iterations + 1 = s.maxiter
        rcases Bool.or_eq_true _ _ |>.mp hex with htr | hbe
        · have htr' : tr = false := by
            revert htr
            cases tr <;> simp
          subst htr'
          exfalso
          apply hfm
          show false ∈ s1.sweepLog ++ [false]
          simp
        · simp only [beq_iff_eq] at hbe
          omega
    · rw [if_neg hex]
      have hbe : ¬ (s1.iterations + 1 = s1.maxiter) := by
        intro hcon
        apply hex
        simp [hcon]
      obtain ⟨s', hloop, hWF', hsam, hM, hmax, hit, hitle, ⟨fl, hflne, hflog⟩, hlast⟩ :=
        ih { s1 with iterations := s1.iterations + 1, sweepLog := s1.sweepLog ++ [tr] }
          (WF_of_fields s1 _ hWF1 rfl rfl rfl rfl)
          (by show s1.iterations + 1 < s1.maxiter; omega)
          (by show s1.maxiter ≤ s1.iterations + 1 + fuel; omega)
      dsimp only at hsam hM hmax hit hitle hflog hlast
      refine ⟨s', hloop, hWF', ?_, ?_, ?_, ?_, ?_, ?_, ?_⟩
      · rw [hsam]
        exact hp1
      · rw [hM]
        exact hp2
      · rw [hmax]
        exact hp4
      · have : s.iterations < s1.iterations + 1 := by omega
        omega
      · have h1 : s1.iterations + 1 ≤ s1.maxiter := by omega
        have h2 : s.maxiter = s1.maxiter := hp4.symm
        omega
      · refine ⟨tr :: fl, by simp, ?_⟩
        rw [hflog, hp6, List.append_assoc]
        simp
      · intro hfm
        have := hlast hfm
        omega

/-- If the loop is entered with an iteration counter already at or past
maxiter, the equality test with maxiter can never fire again, so the loop can
only exit through a transfer-free sweep. -/
theorem loop_cap : ∀ fuel s s', s.maxiter ≤ s.iterations →
    loop fuel s = some (Except.ok s') → s'.sweepLog.getLast? = some false := by
  intro fuel
  induction fuel with
  | zero =>
    intro s s' _ h
    cases h
  | succ fuel ih =>
    intro s s' hcap h
    unfold loop at h
    cases hsw : sweep s with
    | error e =>
      rw [hsw] at h
      cases h
    | ok pr =>
      obtain ⟨s1, tr⟩ := pr
      rw [hsw] at h
      dsimp only at h
      have hfr := sweep_frame s s1 tr hsw
      by_cases hex : (!tr || (s1.iterations + 1 == s1.maxiter)) = true
      · rw [if_pos hex] at h
        injection h with h
        injection h with h
        subst h
        have htr : tr = false := by
          rcases Bool.or_eq_true _ _ |>.mp hex with htr | hbe
          · revert htr
            cases tr <;> simp
          · simp only [beq_iff_eq] at hbe
            have h5 := hfr.2.2.2.2.1
            have h4 := hfr.2.2.2.1
            omega
        subst htr
        show (s1.sweepLog ++ [false]).getLast? = some false
        exact List.getLast?_concat _
      · rw [if_neg hex] at h
        apply ih _ _ _ h
        show s1.maxiter ≤ s1.iterations + 1
        have h5 := hfr.2.2.2.2.1
        have h4 := hfr.2.2.2.1
        omega

/-- The loop only ever increments the iteration counter. -/
theorem loop_mono : ∀ fuel s s', loop fuel s = some (Except.ok s') →
    s.iterations ≤ s'.iterations := by
  intro fuel
  induction fuel with
  | zero =>
    intro s s' h
    cases h
  | succ fuel ih =>
    intro s s' h
    unfold loop at h
    cases hsw : sweep s with
    | error e =>
      rw [hsw] at h
      cases h
    | ok pr =>
      obtain ⟨s1, tr⟩ := pr
      rw [hsw] at h
      dsimp only at h
      have hfr := sweep_frame s s1 tr hsw
      have h5 := hfr.2.2.2.2.1
      by_cases hex : (!tr || (s1.iterations + 1 == s1.maxiter)) = true
      · rw [if_pos hex] at h
        injection h with h
        injection h with h
        subst h
        show s.iterations ≤ s1.iterations + 1
        omega
      · rw [if_neg hex] at h
        have := ih _ _ h
        dsimp only at this
        omega

theorem setPartition_frame (s : WKM) (p : List (List Vec)) (t : WKM)
    (h : s.setPartition p = Except.ok t) :
    scanPreserve s t ∧ t.initialized = s.initialized := by
  unfold WKM.setPartition at h
  cases hf : p.findIdx? (fun pts => pts.isEmpty) with
  | some j =>
    rw [hf] at h
    cases h
  | none =>
    rw [hf] at h
    injection h with h
    subst h
    exact ⟨⟨rfl, rfl, rfl, rfl, rfl, rfl⟩, rfl⟩

theorem computeEnergies_frame (s t : WKM) (h : s.computeEnergies = Except.ok t) :
    scanPreserve s t ∧ t.boundaries = s.boundaries ∧ t.clusters = s.clusters ∧
    t.initialized = s.initialized ∧ t.numtransfers = s.numtransfers := by
  unfold WKM.computeEnergies at h
  cases hf : (List.range s.numclusters).find? (fun j => (s.clusters.getD j []).isEmpty) with
  | some j =>
    rw [hf] at h
    cases h
  | none =>
    rw [hf] at h
    injection h with h
    subst h
    exact ⟨⟨rfl, rfl, rfl, rfl, rfl, rfl⟩, rfl, rfl, rfl, rfl⟩

theorem computeEnergies_ok (s : WKM) (h : ∀ j < s.numclusters, s.clusters.getD j [] ≠ []) :
    ∃ t, s.computeEnergies = Except.ok t := by
  unfold WKM.computeEnergies
  have hf : (List.range s.numclusters).find? (fun j => (s.clusters.getD j []).isEmpty) = none := by
    rw [List.find?_eq_none]
    intro j hj
    have hp := h j (List.mem_range.mp hj)
    simp only [List.isEmpty_iff, Bool.not_eq_true]
    exact hp
  rw [hf]
  exact ⟨_, rfl⟩

theorem mkWKM_numclusters (samples : List Vec) (k : Int) (th : Frac)
    (hN : samples ≠ []) :
    1 ≤ (mkWKM samples k th).numclusters ∧
    (mkWKM samples k th).numclusters ≤ samples.length := by
  have hNp : 0 < samples.length := List.length_pos.mpr hN
  show 1 ≤ (if k < 1 then 1 else if (samples.length : Int) < k then samples.length
    else k.toNat) ∧
    (if k < 1 then 1 else if (samples.length : Int) < k then samples.length
      else k.toNat) ≤ samples.length
  by_cases h1 : k < 1
  · rw [if_pos h1]
    omega
  · rw [if_neg h1]
    by_cases h2 : (samples.length : Int) < k
    · rw [if_pos h2]
      omega
    · rw [if_neg h2]
      omega

/-- Chain' for List.range. -/
theorem chain_lt_range (M : Nat) : List.Chain' (· < ·) (List.range M) := by
  rw [List.chain'_iff_get]
  intro i hi
  simp only [List.length_range] at hi
  simp only [List.get_eq_getElem, List.getElem_range]
  omega

theorem initdefault_fields (s : WKM) (Lcum : List Frac) (L : Frac) (N M : Nat) :
    (s.initdefault Lcum L N M).boundaries = resampleBoundaries N M ∧
    (s.initdefault Lcum L N M).numclusters = s.numclusters ∧
    (s.initdefault Lcum L N M).samples = s.samples ∧
    (s.initdefault Lcum L N M).iterations = s.iterations ∧
    (s.initdefault Lcum L N M).maxiter = s.maxiter ∧
    (s.initdefault Lcum L N M).sweepLog = s.sweepLog ∧
    (s.initdefault Lcum L N M).clusters = s.clusters := by
  unfold WKM.initdefault
  dsimp only
  by_cases hc : Frac.ofNat N / Frac.ofNat M < Frac.ofNat 2
  · rw [if_pos hc]
    exact ⟨rfl, rfl, rfl, rfl, rfl, rfl, rfl⟩
  · rw [if_neg hc]
    exact ⟨rfl, rfl, rfl, rfl, rfl, rfl, rfl⟩

/-- A no-method init from a state with a sane cluster count produces good
boundaries and resets the counters. -/
theorem init_good (s : WKM) (Lcum : List Frac) (L : Frac)
    (h1 : 1 ≤ s.numclusters) (h2 : s.numclusters ≤ s.samples.length) :
    boundariesGood (s.init none Lcum L) ∧
    (s.init none Lcum L).numclusters = s.numclusters ∧
    (s.init none Lcum L).samples = s.samples ∧
    (s.init none Lcum L).iterations = 0 ∧
    (s.init none Lcum L).maxiter = s.maxiter ∧
    (s.init none Lcum L).sweepLog = [] ∧
    (s.init none Lcum L).clusters = List.replicate s.numclusters [] := by
  have hN : 1 ≤ s.samples.length := le_trans h1 h2
  unfold WKM.init
  dsimp only
  by_cases hM1 : s.reset.numclusters ≤ 1
  · rw [if_pos hM1]
    have hM1' : s.numclusters ≤ 1 := hM1
    refine ⟨⟨?_, ?_, ?_⟩, rfl, rfl, rfl, rfl, rfl, rfl⟩
    · show (1 : Nat) = s.numclusters
      omega
    · exact List.chain'_singleton 0
    · intro x hx
      have hx0 : x = 0 := by simpa using hx
      show x < s.samples.length
      omega
  · rw [if_neg hM1]
    have hM1' : ¬ s.numclusters ≤ 1 := hM1
    by_cases hNM : s.reset.samples.length ≤ s.reset.numclusters
    · rw [if_pos hNM]
      have hNM' : s.samples.length ≤ s.numclusters := hNM
      refine ⟨⟨?_, ?_, ?_⟩, rfl, rfl, rfl, rfl, rfl, rfl⟩
      · show (List.range s.numclusters).length = s.numclusters
        simp
      · exact chain_lt_range _
      · intro x hx
        have hxM : x < s.numclusters := List.mem_range.mp hx
        show x < s.samples.length
        omega
    · rw [if_neg hNM]
      have hNM' : ¬ s.samples.length ≤ s.numclusters := hNM
      obtain ⟨hb, hM, hsam, hit, hmax, hlog, hcl⟩ :=
        initdefault_fields s.reset Lcum L s.reset.samples.length s.reset.numclusters
      have hMe : s.reset.numclusters = s.numclusters := rfl
      have hse : s.reset.samples = s.samples := rfl
      refine ⟨⟨?_, ?_, ?_⟩, ?_, ?_, ?_, ?_, ?_, ?_⟩
      · rw [hb, hM, hMe]
        exact resampleBoundaries_length _ _ (by omega) (by omega) (by omega)
      · rw [hb]
        exact resampleBoundaries_chain _ _ (by omega) (by omega) (by omega)
      · intro x hx
        rw [hb] at hx
        rw [hsam, hse]
        exact resampleBoundaries_lt _ _ (by omega) (by omega) (by omega) x hx
      · rw [hM]
        exact hMe
      · rw [hsam]
        exact hse
      · rw [hit]
        rfl
      · rw [hmax]
        rfl
      · rw [hlog]
        rfl
      · rw [hcl]
        rfl

/-- C5: on a freshly constructed instance (iteration counter 0), cluster()
terminates without error for every input, performing at most 100 sweeps, and
if the loop ran and no sweep accepted zero moves it stops after exactly 100
sweeps.  The fuel bounds the number of sweeps the model may execute; any
fuel of at least 100 suffices, which is the termination statement. -/
theorem wkm_C5_first_fit_terminates (samples : List Vec) (k : Int) (th : Frac)
    (Lcum : List Frac) (L : Frac) (fuel : Nat) (hN : samples ≠ []) (hfuel : 100 ≤ fuel) :
    ∃ s', (mkWKM samples k th).cluster fuel Lcum L none = some (Except.ok s') ∧
      s'.iterations ≤ 100 ∧
      ((s'.sweepLog ≠ [] ∧ false ∉ s'.sweepLog) → s'.iterations = 100) := by
  obtain ⟨hk1, hk2⟩ := mkWKM_numclusters samples k th hN
  set s0 := mkWKM samples k th with hs0
  have hk1' : 1 ≤ s0.numclusters := hk1
  have hk2' : s0.numclusters ≤ s0.samples.length := hk2
  obtain ⟨hbG, hM, hsam, hit, hmax, hlog, hcl⟩ := init_good s0 Lcum L hk1' hk2'
  unfold WKM.cluster
  dsimp only
  have hinit : ¬ (s0.initialized = true) := by
    show ¬ ((false : Bool) = true)
    simp
  rw [if_neg hinit]
  set sI := s0.init none Lcum L with hsI
  have hMI : 1 ≤ sI.numclusters := by omega
  have hne : ∀ j < sI.numclusters, 0 < (sI.getClusterSamples j).length :=
    fun j hj => getClusterSamples_len_pos sI hbG j hj
  have hGP := getPartition_ok sI hne
  rw [hGP]
  dsimp only
  set sP : WKM :=
    { sI with clusters := (List.range sI.numclusters).map sI.getClusterSamples } with hsP
  have hWFP : sP.WF := ⟨⟨hbG.1, hbG.2.1, hbG.2.2⟩, rfl, hMI⟩
  have hneP : ∀ j < sP.numclusters, sP.clusters.getD j [] ≠ [] := by
    intro j hj
    rw [WF_clusters_getD sP hWFP j hj]
    have := getClusterSamples_len_pos sP hWFP.1 j hj
    exact List.length_pos.mp this
  obtain ⟨sE, hCE⟩ := computeEnergies_ok sP hneP
  rw [hCE]
  dsimp only
  obtain ⟨⟨hf1, hf2, hf3, hf4, hf5, hf6⟩, hfb, hfc, hfi, hft⟩ := computeEnergies_frame sP sE hCE
  have hWFE : sE.WF := WF_of_fields sP sE hWFP hf1 hf2 hfb hfc
  set s3 : WKM := { sE with energyAtStart := sE.totalenergy } with hs3
  have hWF3 : s3.WF := WF_of_fields sE s3 hWFE rfl rfl rfl rfl
  have hit3 : s3.iterations = 0 := by
    show sE.iterations = 0
    rw [hf5]
    exact hit
  have hmax3 : s3.maxiter = 100 := by
    show sE.maxiter = 100
    rw [hf4]
    show sI.maxiter = 100
    rw [hmax]
    rfl
  have hlog3 : s3.sweepLog = [] := by
    show sE.sweepLog = []
    rw [hf6]
    exact hlog
  by_cases hM2 : s3.numclusters < 2
  · rw [if_pos hM2]
    refine ⟨s3, rfl, by omega, ?_⟩
    intro ⟨hne', _⟩
    exact absurd hlog3 hne'
  · rw [if_neg hM2]
    obtain ⟨s4, hloop, hWF4, _, _, hmax4, _, hit4le, ⟨fl, hflne, hflog⟩, hlast4⟩ :=
      loop_ok fuel s3 hWF3 (by omega) (by omega)
    rw [hloop]
    dsimp only
    have hneF : ∀ j < s4.numclusters, s4.clusters.getD j [] ≠ [] := by
      intro j hj
      rw [WF_clusters_getD s4 hWF4 j hj]
      have := getClusterSamples_len_pos s4 hWF4.1 j hj
      exact List.length_pos.mp this
    obtain ⟨s5, hCE2⟩ := computeEnergies_ok s4 hneF
    rw [hCE2]
    obtain ⟨⟨_, _, _, _, hg5, hg6⟩, _, _, _, _⟩ := computeEnergies_frame s4 s5 hCE2
    refine ⟨s5, rfl, ?_, ?_⟩
    · rw [hg5]
      omega
    · intro ⟨_, hfm⟩
      rw [hg6] at hfm
      rw [hg5, hlast4 hfm, hmax3]

/-- C10: cluster() never resets the sweep counter (when the instance is
already initialized it only grows across a call), and since the loop exit
compares the counter with maxiter by equality, a loop entered with the
counter at or past 100 can only terminate through a sweep that accepts zero
moves (its last logged sweep is transfer-free) - the cap never fires. -/
theorem wkm_C10_cap_unreachable :
    (∀ fuel (s s' : WKM), s.maxiter = 100 → 100 ≤ s.iterations →
      loop fuel s = some (Except.ok s') → s'.sweepLog.getLast? = some false) ∧
    (∀ fuel Lcum L p (s s' : WKM), s.initialized = true →
      WKM.cluster fuel Lcum L p s = some (Except.ok s') →
      s.iterations ≤ s'.iterations) := by
  constructor
  · intro fuel s s' hm hc h
    exact loop_cap fuel s s' (by omega) h
  · intro fuel Lcum L p s s' hinit h
    unfold WKM.cluster at h
    dsimp only at h
    rw [if_pos hinit] at h
    have hrest : ∀ (s1 : WKM), s1.iterations = s.iterations →
        (match s1.computeEnergies with
          | Except.error e => some (Except.error e)
          | Except.ok s2 =>
            let s3 : WKM := { s2 with energyAtStart := s2.totalenergy }
            if s3.numclusters < 2 then some (Except.ok s3)
            else
              match loop fuel s3 with
              | none => none
              | some (Except.error e) => some (Except.error e)
              | some (Except.ok s4) =>
                match s4.computeEnergies with
                | Except.error e => some (Except.error e)
                | Except.ok s5 => some (Except.ok s5)) = some (Except.ok s') →
        s.iterations ≤ s'.iterations := by
      intro s1 hs1 h
      cases hce : s1.computeEnergies with
      | error e =>
        rw [hce] at h
        simp at h
      | ok s2 =>
        rw [hce] at h
        obtain ⟨⟨_, _, _, _, hg5, _⟩, _, _, _, _⟩ := computeEnergies_frame s1 s2 hce
        dsimp only at h
        by_cases hM2 : s2.numclusters < 2
        · rw [if_pos hM2] at h
          injection h with h
          injection h with h
          subst h
          show s.iterations ≤ s2.iterations
          omega
        · rw [if_neg hM2] at h
          cases hl : loop fuel { s2 with energyAtStart := s2.totalenergy } with
          | none =>
            rw [hl] at h
            cases h
          | some r =>
            rw [hl] at h
            cases r with
            | error e => simp at h
            | ok s4 =>
              dsimp only at h
              have hmono := loop_mono fuel _ _ hl
              dsimp only at hmono
              cases hce2 : s4.computeEnergies with
              | error e =>
                rw [hce2] at h
                simp at h
              | ok s5 =>
                rw [hce2] at h
                dsimp only at h
                injection h with h
                injection h with h
                subst h
                obtain ⟨⟨_, _, _, _, hh5, _⟩, _, _, _, _⟩ := computeEnergies_frame s4 s5 hce2
                omega
    cases p with
    | none =>
      dsimp only at h
      cases hgp : s.getPartition with
      | error e =>
        rw [hgp] at h
        simp at h
      | ok s1 =>
        rw [hgp] at h
        have hfr := getPartition_frame s s1 hgp
        exact hrest s1 hfr.2.2.2.2.1 h
    | some pp =>
      dsimp only at h
      cases hsp : s.setPartition pp with
      | error e =>
        rw [hsp] at h
        simp at h
      | ok s1 =>
        rw [hsp] at h
        have hfr := (setPartition_frame s pp s1 hsp).1
        exact hrest s1 hfr.2.2.2.2.1 h

/-- C8: the equal-count strategy produces exactly M boundaries, strictly
increasing and starting at index 0, for every 1 <= M <= N. -/
theorem wkm_C8_resample_spec (N M : Nat) (hN : 1 ≤ N) (hM : 1 ≤ M) (hMN : M ≤ N) :
    (resampleBoundaries N M).length = M ∧
    (resampleBoundaries N M).head? = some 0 ∧
    List.Chain' (· < ·) (resampleBoundaries N M) :=
  ⟨resampleBoundaries_length N M hM hMN hN, resampleBoundaries_head N M hM hMN hN,
   resampleBoundaries_chain N M hM hMN hN⟩

/-- Witness for C8 at N = 5, M = 2 (boundaries [0, 2]). -/
theorem wkm_C8_resample_spec_witness :
    (resampleBoundaries 5 2).length = 2 ∧
    (resampleBoundaries 5 2).head? = some 0 ∧
    List.Chain' (· < ·) (resampleBoundaries 5 2) :=
  wkm_C8_resample_spec 5 2 (by decide) (by decide) (by decide)

theorem init_head (s : WKM) (Lcum : List Frac) (L : Frac)
    (h1 : 1 ≤ s.numclusters) (h2 : s.numclusters ≤ s.samples.length) :
    (s.init none Lcum L).boundaries.head? = some 0 := by
  unfold WKM.init
  dsimp only
  by_cases hM1 : s.reset.numclusters ≤ 1
  · rw [if_pos hM1]
    rfl
  · rw [if_neg hM1]
    have hM1' : ¬ s.numclusters ≤ 1 := hM1
    by_cases hNM : s.reset.samples.length ≤ s.reset.numclusters
    · rw [if_pos hNM]
      show (List.range s.numclusters).head? = some 0
      obtain ⟨m, hm⟩ : ∃ m, s.numclusters = m + 1 := ⟨s.numclusters - 1, by omega⟩
      rw [hm, List.range_succ_eq_map]
      rfl
    · rw [if_neg hNM]
      have hNM' : ¬ s.samples.length ≤ s.numclusters := hNM
      obtain ⟨hb, _⟩ :=
        initdefault_fields s.reset Lcum L s.reset.samples.length s.reset.numclusters
      rw [hb]
      exact resampleBoundaries_head _ _ (by omega) (by omega) (by omega)

theorem leftScanAux_chain (j : Nat) (pts : List Vec) (n : Nat) (fuel i : Nat)
    (s : WKM) (tr : Bool) (s' : WKM) (tr' : Bool) (hWF : s.WF) (hj0 : 0 < j)
    (hjM : j < s.numclusters)
    (h : leftScanAux j pts n i fuel s tr = Except.ok (s', tr')) :
    List.Chain' (· < ·) s'.boundaries ∧ s'.boundaries.head? = s.boundaries.head? := by
  obtain ⟨s2, tr2, heq, hWF2, _, hhead⟩ := leftScanAux_ok j pts n fuel i s tr hWF hj0 hjM
  rw [h] at heq
  injection heq with heq
  injection heq with heq1 heq2
  subst heq1
  exact ⟨hWF2.1.2.1, hhead⟩

theorem rightScanAux_chain (j : Nat) (pts : List Vec) (n : Nat) (fuel : Nat) (i : Int)
    (s : WKM) (tr : Bool) (s' : WKM) (tr' : Bool) (hWF : s.WF)
    (hjM : j + 1 < s.numclusters)
    (h : rightScanAux j pts n i fuel s tr = Except.ok (s', tr')) :
    List.Chain' (· < ·) s'.boundaries ∧ s'.boundaries.head? = s.boundaries.head? := by
  obtain ⟨s2, tr2, heq, hWF2, _, hhead⟩ := rightScanAux_ok j pts n fuel i s tr hWF hjM
  rw [h] at heq
  injection heq with heq
  injection heq with heq1 heq2
  subst heq1
  exact ⟨hWF2.1.2.1, hhead⟩

/-- C4 (amended): every boundary-producing path except setPartition yields a
strictly increasing list starting at 0, and the boundary shifts of the
optimization scans preserve strict increase and the first boundary (from any
well-formed state).  setPartition is the exception refuted separately. -/
theorem wkm_C4_boundaries_amended :
    (∀ N M : Nat, 1 ≤ N → 1 ≤ M → M ≤ N →
      (resampleBoundaries N M).head? = some 0 ∧
      List.Chain' (· < ·) (resampleBoundaries N M)) ∧
    (∀ (Lcum : List Frac) (L : Frac) (M : Nat), 1 ≤ M → (∀ x ∈ Lcum, 0 ≤ x.toRat) →
      (tsBoundaries Lcum L M).head? = some 0 ∧
      List.Chain' (· < ·) (tsBoundaries Lcum L M)) ∧
    (∀ (s : WKM) (Lcum : List Frac) (L : Frac), 1 ≤ s.numclusters →
      s.numclusters ≤ s.samples.length →
      (s.init none Lcum L).boundaries.head? = some 0 ∧
      List.Chain' (· < ·) (s.init none Lcum L).boundaries) ∧
    (∀ (j : Nat) (pts : List Vec) (n fuel i : Nat) (s : WKM) (tr : Bool)
      (s' : WKM) (tr' : Bool), s.WF → 0 < j → j < s.numclusters →
      leftScanAux j pts n i fuel s tr = Except.ok (s', tr') →
      List.Chain' (· < ·) s'.boundaries ∧ s'.boundaries.head? = s.boundaries.head?) ∧
    (∀ (j : Nat) (pts : List Vec) (n fuel : Nat) (i : Int) (s : WKM) (tr : Bool)
      (s' : WKM) (tr' : Bool), s.WF → j + 1 < s.numclusters →
      rightScanAux j pts n i fuel s tr = Except.ok (s', tr') →
      List.Chain' (· < ·) s'.boundaries ∧ s'.boundaries.head? = s.boundaries.head?) := by
  refine ⟨?_, ?_, ?_, ?_, ?_⟩
  · intro N M hN hM hMN
    exact ⟨resampleBoundaries_head N M hM hMN hN, resampleBoundaries_chain N M hM hMN hN⟩
  · intro Lcum L M hM hpos
    exact ⟨tsBoundaries_head Lcum L M hpos hM, tsBoundaries_chain Lcum L M hpos⟩
  · intro s Lcum L h1 h2
    obtain ⟨hbG, _⟩ := init_good s Lcum L h1 h2
    exact ⟨init_head s Lcum L h1 h2, hbG.2.1⟩
  · intro j pts n fuel i s tr s' tr' hWF hj0 hjM h
    exact leftScanAux_chain j pts n fuel i s tr s' tr' hWF hj0 hjM h
  · intro j pts n fuel i s tr s' tr' hWF hjM h
    exact rightScanAux_chain j pts n fuel i s tr s' tr' hWF hjM h

/-- Closed witness state for the scan conjuncts of C4: two singleton
segments over samples [0], [1]. -/
def wkmExampleState : WKM :=
  { samples := [[Frac.ofInt 0], [Frac.ofInt 1]], numclusters := 2,
    threshold := Frac.ofNat 0, dimensions := 1, maxiter := 100, initialized := true,
    boundaries := [0, 1], clusters := [[[Frac.ofInt 0]], [[Frac.ofInt 1]]],
    centroids := [[Frac.ofInt 0]], localenergy := [Frac.ofNat 0],
    totalenergy := Frac.ofNat 0, iterations := 0, numtransfers := 0, cost := 0,
    energyAtStart := Frac.ofNat 0, evalLog := [], moveLog := [], sweepLog := [] }

theorem wkmExampleState_WF : wkmExampleState.WF := by
  refine ⟨⟨rfl, ?_, ?_⟩, ?_, by decide⟩
  · simp [wkmExampleState, List.chain'_cons]
  · intro x hx
    have : x = 0 ∨ x = 1 := by simpa [wkmExampleState] using hx
    rcases this with rfl | rfl <;> decide
  · rfl

/-- Witness for C4 (amended), instantiating every conjunct at concrete
inputs. -/
theorem wkm_C4_boundaries_amended_witness :
    ((resampleBoundaries 5 2).head? = some 0 ∧
      List.Chain' (· < ·) (resampleBoundaries 5 2)) ∧
    ((tsBoundaries [Frac.ofNat 0, Frac.ofNat 1] (Frac.ofNat 1) 2).head? = some 0 ∧
      List.Chain' (· < ·) (tsBoundaries [Frac.ofNat 0, Frac.ofNat 1] (Frac.ofNat 1) 2)) ∧
    (((mkWKM [[Frac.ofInt 0], [Frac.ofInt 1], [Frac.ofInt 2]] 2 (Frac.ofNat 0)).init
        none [] (Frac.ofNat 0)).boundaries.head? = some 0 ∧
      List.Chain' (· < ·) ((mkWKM [[Frac.ofInt 0], [Frac.ofInt 1], [Frac.ofInt 2]] 2
        (Frac.ofNat 0)).init none [] (Frac.ofNat 0)).boundaries) ∧
    (List.Chain' (· < ·) wkmExampleState.boundaries ∧
      wkmExampleState.boundaries.head? = wkmExampleState.boundaries.head?) ∧
    (List.Chain' (· < ·) wkmExampleState.boundaries ∧
      wkmExampleState.boundaries.head? = wkmExampleState.boundaries.head?) := by
  refine ⟨?_, ?_, ?_, ?_, ?_⟩
  · exact wkm_C4_boundaries_amended.1 5 2 (by decide) (by decide) (by decide)
  · refine wkm_C4_boundaries_amended.2.1 [Frac.ofNat 0, Frac.ofNat 1] (Frac.ofNat 1) 2
      (by decide) ?_
    intro x hx
    have : x = Frac.ofNat 0 ∨ x = Frac.ofNat 1 := by simpa using hx
    rcases this with rfl | rfl <;> rw [Frac.toRat_ofNat] <;> norm_num
  · exact wkm_C4_boundaries_amended.2.2.1 _ [] (Frac.ofNat 0) (by decide) (by decide)
  · exact wkm_C4_boundaries_amended.2.2.2.1 1 [] 0 0 0 wkmExampleState false
      wkmExampleState false wkmExampleState_WF (by decide) (by decide) rfl
  · exact wkm_C4_boundaries_amended.2.2.2.2 0 [] 0 0 0 wkmExampleState false
      wkmExampleState false wkmExampleState_WF (by decide) rfl

/-- C4 as stated is false: setPartition rebuilds boundaries from segment
lengths minus one, so the two singleton segments [[0]], [[1]] produce the
boundary list [0, 0], which is not strictly increasing. -/
theorem wkm_C4_setPartition_cex :
    ((mkWKM [[Frac.ofInt 0], [Frac.ofInt 1]] 2 (Frac.ofNat 0)).setPartition
        [[[Frac.ofInt 0]], [[Frac.ofInt 1]]]).toOption.map WKM.boundaries = some [0, 0] ∧
    ¬ List.Chain' (· < ·) ([0, 0] : List Nat) := by
  constructor
  · rfl
  · simp [List.chain'_cons]

/-- C7: with 1 < M < N, initializing with no method and initializing with
"eq" produce the same boundary list (the default path ends in the same
unconditional resample). -/
theorem wkm_C7_default_init_equals_eq (s : WKM) (Lcum : List Frac) (L : Frac)
    (h1 : 1 < s.numclusters) (h2 : s.numclusters < s.samples.length) :
    (s.init none Lcum L).boundaries = (s.init (some "eq") Lcum L).boundaries := by
  unfold WKM.init
  dsimp only
  have hM1 : ¬ (s.reset.numclusters ≤ 1) := by
    show ¬ (s.numclusters ≤ 1)
    omega
  have hNM : ¬ (s.reset.samples.length ≤ s.reset.numclusters) := by
    show ¬ (s.samples.length ≤ s.numclusters)
    omega
  simp only [if_neg hM1, if_neg hNM]
  rw [if_neg (show ¬ (strToLower "eq" = "ts") from by decide),
      if_pos (show strToLower "eq" = "eq" from by decide)]
  exact (initdefault_fields s.reset Lcum L s.reset.samples.length s.reset.numclusters).1

/-- Witness for C7 at samples [0],[1],[2], M = 2. -/
theorem wkm_C7_default_init_equals_eq_witness :
    ((mkWKM [[Frac.ofInt 0], [Frac.ofInt 1], [Frac.ofInt 2]] 2 (Frac.ofNat 0)).init
      none [] (Frac.ofNat 0)).boundaries =
    ((mkWKM [[Frac.ofInt 0], [Frac.ofInt 1], [Frac.ofInt 2]] 2 (Frac.ofNat 0)).init
      (some "eq") [] (Frac.ofNat 0)).boundaries :=
  wkm_C7_default_init_equals_eq _ [] (Frac.ofNat 0) (by decide) (by decide)

/-- C6: the EmptyCluster error is raised exactly when a segment is empty.
getPartition fails iff some derived segment [boundary j, next boundary or N)
is empty and succeeds otherwise; setPartition fails iff some supplied
segment is empty and succeeds otherwise; and a derived segment j is empty
iff its start boundary is at or past both the list end N and the segment
end. -/
theorem wkm_C6_empty_cluster_iff :
    (∀ s : WKM,
      ((∃ e, s.getPartition = Except.error e) ↔
        ∃ j, j < s.numclusters ∧ s.getClusterSamples j = []) ∧
      ((∃ t, s.getPartition = Except.ok t) ↔
        ∀ j, j < s.numclusters → s.getClusterSamples j ≠ [])) ∧
    (∀ (s : WKM) (p : List (List Vec)),
      ((∃ e, s.setPartition p = Except.error e) ↔ ∃ pts, pts ∈ p ∧ pts = []) ∧
      ((∃ t, s.setPartition p = Except.ok t) ↔ ∀ pts, pts ∈ p → pts ≠ [])) ∧
    (∀ (s : WKM) (j : Nat), s.getClusterSamples j = [] ↔
      ((if j + 1 < s.numclusters then s.boundaries.getD (j + 1) 0
          else s.samples.length) ≤ s.boundaries.getD j 0 ∨
        s.samples.length ≤ s.boundaries.getD j 0)) := by
  refine ⟨?_, ?_, ?_⟩
  · intro s
    unfold WKM.getPartition
    cases hf : (List.range s.numclusters).find?
        (fun j => (s.getClusterSamples j).isEmpty) with
    | some j =>
      have hm := List.mem_range.mp (List.mem_of_find?_eq_some hf)
      have hp : (s.getClusterSamples j).isEmpty = true := by
        simpa using List.find?_some hf
      constructor
      · constructor
        · intro _
          exact ⟨j, hm, by simpa [List.isEmpty_iff] using hp⟩
        · intro _
          exact ⟨_, rfl⟩
      · constructor
        · rintro ⟨t, ht⟩
          simp at ht
        · intro hall
          exact absurd (by simpa [List.isEmpty_iff] using hp) (hall j hm)
    | none =>
      have hnone := List.find?_eq_none.mp hf
      constructor
      · constructor
        · rintro ⟨e, he⟩
          simp at he
        · rintro ⟨j, hj, hempty⟩
          exact absurd (by simp [hempty]) (hnone j (List.mem_range.mpr hj))
      · constructor
        · intro _ j hj hcon
          exact hnone j (List.mem_range.mpr hj) (by simp [hcon])
        · intro _
          exact ⟨_, rfl⟩
  · intro s p
    unfold WKM.setPartition
    cases hf : p.findIdx? (fun pts => pts.isEmpty) with
    | some j =>
      obtain ⟨hlen, hpj, -⟩ := List.findIdx?_eq_some_iff_getElem.mp hf
      constructor
      · constructor
        · intro _
          exact ⟨p.get ⟨j, hlen⟩, List.get_mem p j hlen,
            by simpa [List.isEmpty_iff, List.get_eq_getElem] using hpj⟩
        · intro _
          exact ⟨_, rfl⟩
      · constructor
        · rintro ⟨t, ht⟩
          simp at ht
        · intro hall
          exact absurd (by simpa [List.isEmpty_iff, List.get_eq_getElem] using hpj)
            (hall (p.get ⟨j, hlen⟩) (List.get_mem p j hlen))
    | none =>
      have hnone := List.findIdx?_eq_none_iff.mp hf
      constructor
      · constructor
        · rintro ⟨e, he⟩
          simp at he
        · rintro ⟨pts, hmem, hempty⟩
          have := hnone pts hmem
          rw [hempty] at this
          simp at this
      · constructor
        · intro _ pts hmem hcon
          have := hnone pts hmem
          rw [hcon] at this
          simp at this
        · intro _
          exact ⟨_, rfl⟩
  · intro s j
    unfold WKM.getClusterSamples
    rw [← List.length_eq_zero, listSlice_length]
    omega

/-- C1 is refuted: on the 1-D samples 0,0,3,0,2,2,2 with three segments and
threshold 0, the first fit terminates without error after three sweeps and
four accepted moves, but the final from-scratch total energy is 6 while the
initial partition energy was 14/3: the energy increased.  (The scans pass a
stale segment size n to the incremental mean update from the second accepted
move of a scan on, corrupting a centroid, so accepted moves can increase the
true energy.) -/
theorem wkm_C1_energy_increase :
    runOutcome (sC1.cluster 100 lcC1 (Frac.ofNat 8) none) (fun t =>
      decide (t.boundaries = [0, 3, 4]) && decide (t.iterations = 3) &&
      decide (t.numtransfers = 4) && decide (t.cost = 13) &&
      t.energyAtStart.veq (Frac.ofNat 14 / Frac.ofNat 3) &&
      t.totalenergy.veq (Frac.ofNat 6) &&
      decide (t.energyAtStart < t.totalenergy) &&
      decide (t.sweepLog = [true, true, false])) = true := by decide

/-- C2 as stated is refuted: on the 1-D samples 1,1,0,3,0 with two segments
and threshold 0, some candidate evaluation of the run decides differently
from the claim's formula in which n is the size of segment j at the moment
the candidate is evaluated (the code uses the size at scan start). -/
theorem wkm_C2_current_size_cex :
    runOutcome (sC2.cluster 100 lcC2 (Frac.ofNat 7) none)
      (fun t => t.evalLog.any c2Mismatch) = true := by decide

/-- C3 as stated is refuted: on the 1-D samples 0,0,0,0,1 with two segments
and threshold 0, after some accepted move an incrementally updated centroid
differs from the exact mean of its segment's current membership. -/
theorem wkm_C3_incremental_mean_cex :
    runOutcome (sC3.cluster 100 lcC3 (Frac.ofNat 1) none)
      (fun t => t.moveLog.any movedCentroidsMismatch) = true := by decide

/-- C9 is refuted: on the 1-D samples 0,1,1,2,4 with two segments and
threshold 0, the first fit converges (its last sweep accepts zero moves,
well below the cap) at boundaries [0, 3]; calling cluster() again on the
resulting instance accepts a further move and changes the boundaries to
[0, 4]. -/
theorem wkm_C9_rerun_not_idempotent :
    runOutcome (sC9.cluster 100 lcC9 (Frac.ofNat 4) none) (fun t1 =>
      decide (t1.sweepLog.getLast? = some false) && decide (t1.iterations < 100) &&
      decide (t1.boundaries = [0, 3]) &&
      runOutcome (t1.cluster 100 lcC9 (Frac.ofNat 4) none) (fun t2 =>
        decide (t1.numtransfers < t2.numtransfers) &&
        decide (t2.boundaries = [0, 4]))) = true := by decide

/-- Witness for C5 at the 1-D samples 0,1 with two segments. -/
theorem wkm_C5_first_fit_terminates_witness :
    ([i1 0, i1 1] : List Vec) ≠ [] ∧
    ∃ s', (mkWKM [i1 0, i1 1] 2 (Frac.ofNat 0)).cluster 100 [Frac.ofNat 0, Frac.ofNat 1]
        (Frac.ofNat 1) none = some (Except.ok s') ∧
      s'.iterations ≤ 100 ∧
      ((s'.sweepLog ≠ [] ∧ false ∉ s'.sweepLog) → s'.iterations = 100) :=
  ⟨by simp, wkm_C5_first_fit_terminates [i1 0, i1 1] 2 (Frac.ofNat 0)
    [Frac.ofNat 0, Frac.ofNat 1] (Frac.ofNat 1) 100 (by simp) (by decide)⟩

theorem vadd_length (u v : Vec) : (vadd u v).length = min u.length v.length := by
  simp [vadd]

theorem getD_map_range (D k : Nat) (f : Nat → Frac) (hk : k < D) :
    (((List.range D).map f).getD k 0) = f k := by
  have h1 : k < ((List.range D).map f).length := by simpa using hk
  rw [List.getD_eq_getElem _ _ h1, List.getElem_map]
  simp

theorem foldl_vadd_length (D : Nat) : ∀ (pts : List Vec) (acc : Vec), acc.length = D →
    (∀ p ∈ pts, p.length = D) → (pts.foldl vadd acc).length = D := by
  intro pts
  induction pts with
  | nil =>
    intro acc ha _
    simpa using ha
  | cons p ps ih =>
    intro acc ha hp
    show (ps.foldl vadd (vadd acc p)).length = D
    apply ih
    · rw [vadd_length, ha, hp p (by simp)]
      simp
    · intro q hq
      exact hp q (by simp [hq])

theorem foldl_vadd_coord (D k : Nat) (hk : k < D) : ∀ (pts : List Vec) (acc : Vec),
    acc.length = D → (∀ p ∈ pts, p.length = D) →
    ((pts.foldl vadd acc).getD k 0).toRat =
      (acc.getD k 0).toRat + (pts.map (fun p => (p.getD k 0).toRat)).sum := by
  intro pts
  induction pts with
  | nil =>
    intro acc ha hp
    simp
  | cons p ps ih =>
    intro acc ha hp
    show ((ps.foldl vadd (vadd acc p)).getD k 0).toRat = _
    rw [ih (vadd acc p)
        (by rw [vadd_length, ha, hp p (by simp)]; simp)
        (fun q hq => hp q (by simp [hq]))]
    have hka : k < acc.length := by omega
    have hkp : k < p.length := by
      rw [hp p (by simp)]
      exact hk
    have hkz : k < (vadd acc p).length := by
      rw [vadd_length]
      omega
    have hvc : ((vadd acc p).getD k 0) = acc.getD k 0 + p.getD k 0 := by
      rw [List.getD_eq_getElem _ _ hkz, List.getD_eq_getElem _ _ hka,
        List.getD_eq_getElem _ _ hkp]
      show (List.zipWith (· + ·) acc p)[k] = _
      rw [List.getElem_zipWith]
    rw [hvc, Frac.toRat_add]
    simp only [List.map_cons, List.sum_cons]
    ring

theorem clustercenter_length (q : Vec) (ps : List Vec) (D : Nat) (hq : q.length = D)
    (hps : ∀ p ∈ ps, p.length = D) : (clustercenter (q :: ps)).length = D := by
  show ((ps.foldl vadd q).map _).length = D
  rw [List.length_map]
  exact foldl_vadd_length D ps q hq hps

theorem clustercenter_coord (q : Vec) (ps : List Vec) (D k : Nat) (hq : q.length = D)
    (hps : ∀ p ∈ ps, p.length = D) (hk : k < D) :
    ((clustercenter (q :: ps)).getD k 0).toRat =
      (((q :: ps).map (fun p => (p.getD k 0).toRat)).sum) / ((ps.length : ℚ) + 1) := by
  show (((ps.foldl vadd q).map (fun x => x / Frac.ofNat (ps.length + 1))).getD k 0).toRat = _
  have hlen : k < (ps.foldl vadd q).length := by
    rw [foldl_vadd_length D ps q hq hps]
    exact hk
  have hlen2 : k < ((ps.foldl vadd q).map (fun x => x / Frac.ofNat (ps.length + 1))).length := by
    simpa using hlen
  rw [List.getD_eq_getElem _ _ hlen2, List.getElem_map, Frac.toRat_div, Frac.toRat_ofNat]
  have hc := foldl_vadd_coord D k hk ps q hq hps
  rw [List.getD_eq_getElem _ _ hlen] at hc
  rw [hc]
  simp only [List.map_cons, List.sum_cons]
  push_cast
  ring

/-- C3 amended: the incremental mean updates of incrementalMeans are exact
when the sizes passed in are the true current sizes.  If the stored centroid
of segment j is the exact mean of sample :: rest (sample being the member
about to move, rest the members it retains) and the stored centroid of
segment b is the exact mean of its membership ys, then after
incrementalMeans with n = rest.length + 1 and m = ys.length the two updated
centroids are, coordinate by coordinate, the exact means of rest and of
ys ++ [sample].  (In the optimization loop the passed n is the segment size
at scan start, which equals the current size only for the first accepted
move of each directional scan; the counterexample shows a later move
breaking the invariant.) -/
theorem wkm_C3_incremental_means_amended (s : WKM) (sample : Vec) (j b : Nat)
    (rest ys : List Vec)
    (hjb : j ≠ b) (hjl : j < s.centroids.length) (hbl : b < s.centroids.length)
    (hsl : sample.length = s.dimensions)
    (hrl : ∀ p ∈ rest, p.length = s.dimensions)
    (hyl : ∀ p ∈ ys, p.length = s.dimensions)
    (hrest : rest ≠ []) (hys : ys ≠ [])
    (hcj : ∀ k, k < s.dimensions → ((s.centroids.getD j []).getD k 0).toRat =
      ((clustercenter (sample :: rest)).getD k 0).toRat)
    (hcb : ∀ k, k < s.dimensions → ((s.centroids.getD b []).getD k 0).toRat =
      ((clustercenter ys).getD k 0).toRat) :
    ∀ k, k < s.dimensions →
      ((((s.incrementalMeans sample j b (rest.length + 1) ys.length).centroids.getD j
          []).getD k 0).toRat = ((clustercenter rest).getD k 0).toRat ∧
       (((s.incrementalMeans sample j b (rest.length + 1) ys.length).centroids.getD b
          []).getD k 0).toRat = ((clustercenter (ys ++ [sample])).getD k 0).toRat) := by
  intro k hk
  obtain ⟨r0, rs, rfl⟩ : ∃ r0 rs, rest = r0 :: rs := by
    cases rest with
    | nil => exact absurd rfl hrest
    | cons a l => exact ⟨a, l, rfl⟩
  obtain ⟨y0, yss, rfl⟩ : ∃ y0 yss, ys = y0 :: yss := by
    cases ys with
    | nil => exact absurd rfl hys
    | cons a l => exact ⟨a, l, rfl⟩
  have hallr : ∀ p ∈ sample :: r0 :: rs, p.length = s.dimensions := by
    intro p hp
    rcases List.mem_cons.mp hp with h | h
    · rw [h]; exact hsl
    · exact hrl p h
  have hcjv := hcj k hk
  rw [clustercenter_coord sample (r0 :: rs) s.dimensions k hsl (fun p hp => hrl p hp) hk]
    at hcjv
  have hcbv := hcb k hk
  rw [clustercenter_coord y0 yss s.dimensions k (hyl y0 (by simp))
    (fun p hp => hyl p (by simp [hp])) hk] at hcbv
  unfold WKM.incrementalMeans
  dsimp only
  constructor
  · have hjl2 : j < ((s.centroids.set b
        ((List.range s.dimensions).map (fun d =>
          (s.centroids.getD b []).getD d 0 +
            ((sample.getD d 0 - (s.centroids.getD b []).getD d 0) /
              (Frac.ofNat (y0 :: yss).length + Frac.ofNat 1))))).set j
        ((List.range s.dimensions).map (fun d =>
          (s.centroids.getD j []).getD d 0 -
            ((sample.getD d 0 - (s.centroids.getD j []).getD d 0) /
              (Frac.ofNat ((r0 :: rs).length + 1) - Frac.ofNat 1))))).length := by
      simpa using hjl
    rw [List.getD_eq_getElem _ _ hjl2, List.getElem_set_self (by simpa using hjl)]
    rw [getD_map_range s.dimensions k _ hk]
    simp only [Frac.toRat_sub, Frac.toRat_div, Frac.toRat_add, Frac.toRat_ofNat]
    rw [clustercenter_coord r0 rs s.dimensions k (hrl r0 (by simp))
      (fun p hp => hrl p (by simp [hp])) hk]
    rw [hcjv]
    simp only [List.map_cons, List.sum_cons, List.length_cons]
    have hr1 : ((rs.length : ℚ) + 1) ≠ 0 := by positivity
    have hr2 : ((rs.length : ℚ) + 1 + 1) ≠ 0 := by positivity
    push_cast
    rw [show (((rs.length : ℚ) + 1 + 1) - 1) = ((rs.length : ℚ) + 1) by ring]
    field_simp
    ring
  · have hbl2 : b < ((s.centroids.set b
        ((List.range s.dimensions).map (fun d =>
          (s.centroids.getD b []).getD d 0 +
            ((sample.getD d 0 - (s.centroids.getD b []).getD d 0) /
              (Frac.ofNat (y0 :: yss).length + Frac.ofNat 1))))).set j
        ((List.range s.dimensions).map (fun d =>
          (s.centroids.getD j []).getD d 0 -
            ((sample.getD d 0 - (s.centroids.getD j []).getD d 0) /
              (Frac.ofNat ((r0 :: rs).length + 1) - Frac.ofNat 1))))).length := by
      simpa using hbl
    rw [List.getD_eq_getElem _ _ hbl2, List.getElem_set_ne hjb,
      List.getElem_set_self (by simpa using hbl)]
    rw [getD_map_range s.dimensions k _ hk]
    simp only [Frac.toRat_sub, Frac.toRat_div, Frac.toRat_add, Frac.toRat_ofNat]
    have hcons : (y0 :: yss) ++ [sample] = y0 :: (yss ++ [sample]) := rfl
    rw [hcons, clustercenter_coord y0 (yss ++ [sample]) s.dimensions k (hyl y0 (by simp))
      (by
        intro p hp
        rcases List.mem_append.mp hp with h | h
        · exact hyl p (by simp [h])
        · rw [List.mem_singleton.mp h]
          exact hsl) hk]
    rw [hcbv]
    simp only [List.map_cons, List.sum_cons, List.map_append, List.sum_append,
      List.length_cons, List.length_append, List.map_nil, List.sum_nil,
      List.length_singleton]
    have hm1 : ((yss.length : ℚ) + 1) ≠ 0 := by positivity
    have hm2 : ((yss.length : ℚ) + 1 + 1) ≠ 0 := by positivity
    push_cast
    field_simp
    ring

/-- Witness for the amended C3: moving the sample 0 out of segment 0 (members
0, 2, centroid 1) into segment 1 (member 2, centroid 2) with the true current
sizes n = 2, m = 1 yields centroids that are the exact means 2 and 1. -/
theorem wkm_C3_incremental_means_amended_witness :
    (((sW3.incrementalMeans [Frac.ofInt 0] 0 1 2 1).centroids.getD 0 []).getD 0 0).toRat =
      ((clustercenter [[Frac.ofInt 2]]).getD 0 0).toRat ∧
    (((sW3.incrementalMeans [Frac.ofInt 0] 0 1 2 1).centroids.getD 1 []).getD 0 0).toRat =
      ((clustercenter ([[Frac.ofInt 2]] ++ [[Frac.ofInt 0]])).getD 0 0).toRat :=
  wkm_C3_incremental_means_amended sW3 [Frac.ofInt 0] 0 1 [[Frac.ofInt 2]] [[Frac.ofInt 2]]
    (by decide) (by decide) (by decide) rfl
    (by
      intro p hp
      rw [List.mem_singleton.mp hp]
      rfl)
    (by
      intro p hp
      rw [List.mem_singleton.mp hp]
      rfl)
    (by simp) (by simp)
    (by
      intro k hk
      have hk1 : k < 1 := hk
      have h0 : k = 0 := by omega
      subst h0
      exact (Frac.veq_iff_toRat _ _).mp (by decide))
    (by
      intro k hk
      have hk1 : k < 1 := hk
      have h0 : k = 0 := by omega
      subst h0
      exact (Frac.veq_iff_toRat _ _).mp (by decide))
    0 (by decide)

theorem getPartition_evalLog (s t : WKM) (h : s.getPartition = Except.ok t) :
    t.evalLog = s.evalLog := by
  unfold WKM.getPartition at h
  cases hf : (List.range s.numclusters).find? (fun j => (s.getClusterSamples j).isEmpty) with
  | some j =>
    rw [hf] at h
    cases h
  | none =>
    rw [hf] at h
    injection h with h
    rw [← h]

/-- One candidate evaluation appends exactly its own record to the ghost
evaluation log. -/
theorem scanEval_evalLog (s : WKM) (j b n : Nat) (sample : Vec) (s' : WKM) (acc : Bool)
    (h : scanEval s j b n sample = Except.ok (s', acc)) :
    s'.evalLog = s.evalLog ++ [candRecOf s j b n sample] := by
  unfold scanEval at h
  by_cases hacc : acceptTest s j b n sample = true
  · rw [if_pos hacc] at h
    cases hGP : (moveState
        { s with cost := s.cost + 1, evalLog := s.evalLog ++ [candRecOf s j b n sample] }
        j b n sample).getPartition with
    | error e =>
      rw [hGP] at h
      cases h
    | ok s4 =>
      rw [hGP] at h
      dsimp only at h
      injection h with h
      injection h with h1 h2
      rw [← h1]
      exact getPartition_evalLog _ s4 hGP
  · rw [if_neg hacc] at h
    injection h with h
    injection h with h1 h2
    rw [← h1]

theorem leftScanAux_evalLog (j : Nat) (pts : List Vec) (n : Nat) (fuel : Nat) :
    ∀ (i : Nat) (s : WKM) (tr : Bool) (s' : WKM) (tr' : Bool),
      leftScanAux j pts n i fuel s tr = Except.ok (s', tr') →
      ∀ r ∈ s'.evalLog, r ∈ s.evalLog ∨ r.nUsed = n := by
  induction fuel with
  | zero =>
    intro i s tr s' tr' h r hr
    unfold leftScanAux at h
    injection h with h
    injection h with h1 h2
    rw [← h1] at hr
    exact Or.inl hr
  | succ fuel ih =>
    intro i s tr s' tr' h r hr
    unfold leftScanAux at h
    cases hse : scanEval s j (j - 1) n (pts.getD i []) with
    | error e =>
      rw [hse] at h
      cases h
    | ok p =>
      obtain ⟨s5, acc⟩ := p
      rw [hse] at h
      have hlog := scanEval_evalLog s j (j - 1) n (pts.getD i []) s5 acc hse
      cases acc with
      | true =>
        dsimp only at h
        rcases ih (i + 1) s5 true s' tr' h r hr with hmem | hn
        · rw [hlog] at hmem
          rcases List.mem_append.mp hmem with h1 | h2
          · exact Or.inl h1
          · right
            have hre : r = candRecOf s j (j - 1) n (pts.getD i []) := by simpa using h2
            rw [hre]
            rfl
        · exact Or.inr hn
      | false =>
        dsimp only at h
        injection h with h
        injection h with h1 h2
        rw [← h1] at hr
        rw [hlog] at hr
        rcases List.mem_append.mp hr with h1 | h2
        · exact Or.inl h1
        · right
          have hre : r = candRecOf s j (j - 1) n (pts.getD i []) := by simpa using h2
          rw [hre]
          rfl

theorem rightScanAux_evalLog (j : Nat) (pts : List Vec) (n : Nat) (fuel : Nat) :
    ∀ (i : Int) (s : WKM) (tr : Bool) (s' : WKM) (tr' : Bool),
      rightScanAux j pts n i fuel s tr = Except.ok (s', tr') →
      ∀ r ∈ s'.evalLog, r ∈ s.evalLog ∨ r.nUsed = n := by
  induction fuel with
  | zero =>
    intro i s tr s' tr' h r hr
    unfold rightScanAux at h
    injection h with h
    injection h with h1 h2
    rw [← h1] at hr
    exact Or.inl hr
  | succ fuel ih =>
    intro i s tr s' tr' h r hr
    unfold rightScanAux at h
    cases hse : scanEval s j (j + 1) n (pts.getD i.toNat []) with
    | error e =>
      rw [hse] at h
      cases h
    | ok p =>
      obtain ⟨s5, acc⟩ := p
      rw [hse] at h
      have hlog := scanEval_evalLog s j (j + 1) n (pts.getD i.toNat []) s5 acc hse
      cases acc with
      | true =>
        dsimp only at h
        rcases ih (i - 1) s5 true s' tr' h r hr with hmem | hn
        · rw [hlog] at hmem
          rcases List.mem_append.mp hmem with h1 | h2
          · exact Or.inl h1
          · right
            have hre : r = candRecOf s j (j + 1) n (pts.getD i.toNat []) := by simpa using h2
            rw [hre]
            rfl
        · exact Or.inr hn
      | false =>
        dsimp only at h
        injection h with h
        injection h with h1 h2
        rw [← h1] at hr
        rw [hlog] at hr
        rcases List.mem_append.mp hr with h1 | h2
        · exact Or.inl h1
        · right
          have hre : r = candRecOf s j (j + 1) n (pts.getD i.toNat []) := by simpa using h2
          rw [hre]
          rfl

/-- C2 amended: a candidate move of sample out of segment j into the
adjacent segment b is accepted iff J1 - J2 < 0 and segment j currently
retains more than one member, where J1 = (m/(m+1)) * d2(sample, centroid b)
with m the size of b at evaluation time, and J2 = (n/(n-1)) * d2(sample,
centroid j) with n the size of segment j at the START of the directional
scan, held fixed for the whole scan (not the size at evaluation time).  The
second and third conjuncts show the freezing: every evaluation record a
directional scan appends carries that one scan-start n. -/
theorem wkm_C2_accept_amended :
    (∀ (s : WKM) (j b n : Nat) (sample : Vec),
      acceptTest s j b n sample = true ↔
        ((((s.clusters.getD b []).length : ℚ) /
              (((s.clusters.getD b []).length : ℚ) + 1) *
            (sqL2 sample (s.centroids.getD b [])).toRat -
          (n : ℚ) / ((n : ℚ) - 1) *
            (sqL2 sample (s.centroids.getD j [])).toRat < 0) ∧
          1 < (s.clusters.getD j []).length)) ∧
    (∀ (j : Nat) (pts : List Vec) (n i fuel : Nat) (s : WKM) (tr : Bool)
      (s' : WKM) (tr' : Bool),
      leftScanAux j pts n i fuel s tr = Except.ok (s', tr') →
      ∀ r ∈ s'.evalLog, r ∈ s.evalLog ∨ r.nUsed = n) ∧
    (∀ (j : Nat) (pts : List Vec) (n fuel : Nat) (i : Int) (s : WKM) (tr : Bool)
      (s' : WKM) (tr' : Bool),
      rightScanAux j pts n i fuel s tr = Except.ok (s', tr') →
      ∀ r ∈ s'.evalLog, r ∈ s.evalLog ∨ r.nUsed = n) := by
  refine ⟨?_, ?_, ?_⟩
  · intro s j b n sample
    unfold acceptTest
    simp only [Bool.and_eq_true, decide_eq_true_eq, Frac.lt_iff_toRat, Frac.toRat_sub,
      Frac.toRat_mul, Frac.toRat_div, Frac.toRat_add, Frac.toRat_ofNat, Nat.cast_zero,
      Nat.cast_one]
  · intro j pts n i fuel s tr s' tr' h
    exact leftScanAux_evalLog j pts n fuel i s tr s' tr' h
  · intro j pts n fuel i s tr s' tr' h
    exact rightScanAux_evalLog j pts n fuel i s tr s' tr' h

/-- From any already-initialized state whose boundary list is well formed
(one boundary per segment, strictly increasing, within the sample range) and
whose counters are fresh, cluster() terminates without error within at most
maxiter = 100 sweeps, reaching exactly 100 when no sweep was transfer-free. -/
theorem cluster_initialized_ok (s : WKM) (fuel : Nat) (Lcum : List Frac) (L : Frac)
    (hinit : s.initialized = true) (hbG : boundariesGood s) (hM1 : 1 ≤ s.numclusters)
    (hmax : s.maxiter = 100) (hit : s.iterations = 0) (hlog : s.sweepLog = [])
    (hfuel : 100 ≤ fuel) :
    ∃ s', WKM.cluster fuel Lcum L none s = some (Except.ok s') ∧
      s'.iterations ≤ 100 ∧
      ((s'.sweepLog ≠ [] ∧ false ∉ s'.sweepLog) → s'.iterations = 100) := by
  unfold WKM.cluster
  dsimp only
  rw [if_pos hinit]
  have hne : ∀ j < s.numclusters, 0 < (s.getClusterSamples j).length :=
    fun j hj => getClusterSamples_len_pos s hbG j hj
  have hGP := getPartition_ok s hne
  rw [hGP]
  dsimp only
  set sP : WKM :=
    { s with clusters := (List.range s.numclusters).map s.getClusterSamples } with hsP
  have hWFP : sP.WF := ⟨⟨hbG.1, hbG.2.1, hbG.2.2⟩, rfl, hM1⟩
  have hneP : ∀ j < sP.numclusters, sP.clusters.getD j [] ≠ [] := by
    intro j hj
    rw [WF_clusters_getD sP hWFP j hj]
    have := getClusterSamples_len_pos sP hWFP.1 j hj
    exact List.length_pos.mp this
  obtain ⟨sE, hCE⟩ := computeEnergies_ok sP hneP
  rw [hCE]
  dsimp only
  obtain ⟨⟨hf1, hf2, hf3, hf4, hf5, hf6⟩, hfb, hfc, hfi, hft⟩ := computeEnergies_frame sP sE hCE
  have hWFE : sE.WF := WF_of_fields sP sE hWFP hf1 hf2 hfb hfc
  set s3 : WKM := { sE with energyAtStart := sE.totalenergy } with hs3
  have hWF3 : s3.WF := WF_of_fields sE s3 hWFE rfl rfl rfl rfl
  have hit3 : s3.iterations = 0 := by
    show sE.iterations = 0
    rw [hf5]
    exact hit
  have hmax3 : s3.maxiter = 100 := by
    show sE.maxiter = 100
    rw [hf4]
    exact hmax
  have hlog3 : s3.sweepLog = [] := by
    show sE.sweepLog = []
    rw [hf6]
    exact hlog
  by_cases hM2 : s3.numclusters < 2
  · rw [if_pos hM2]
    refine ⟨s3, rfl, by omega, ?_⟩
    intro ⟨hne', _⟩
    exact absurd hlog3 hne'
  · rw [if_neg hM2]
    obtain ⟨s4, hloop, hWF4, _, _, hmax4, _, hit4le, ⟨fl, hflne, hflog⟩, hlast4⟩ :=
      loop_ok fuel s3 hWF3 (by omega) (by omega)
    rw [hloop]
    dsimp only
    have hneF : ∀ j < s4.numclusters, s4.clusters.getD j [] ≠ [] := by
      intro j hj
      rw [WF_clusters_getD s4 hWF4 j hj]
      have := getClusterSamples_len_pos s4 hWF4.1 j hj
      exact List.length_pos.mp this
    obtain ⟨s5, hCE2⟩ := computeEnergies_ok s4 hneF
    rw [hCE2]
    obtain ⟨⟨_, _, _, _, hg5, hg6⟩, _, _, _, _⟩ := computeEnergies_frame s4 s5 hCE2
    refine ⟨s5, rfl, ?_, ?_⟩
    · rw [hg5]
      omega
    · intro ⟨_, hfm⟩
      rw [hg6] at hfm
      rw [hg5, hlast4 hfm, hmax3]

/-- C5 amended: the first cluster() call terminates within at most 100
sweeps without raising an error - halting after exactly 100 sweeps when no
sweep accepted zero moves - on a freshly constructed instance, and on a
freshly initialized instance (iteration counter 0, empty sweep history)
whose boundary list is well formed: one boundary per segment, strictly
increasing, within the sample range, as the default and equal-count
initializers always produce.  (A fresh trace-segmentation initialization
can produce an out-of-range boundary list, and the first cluster() call
then raises EmptyCluster before any sweep: the counterexample.) -/
theorem wkm_C5_first_fit_amended :
    (∀ (samples : List Vec) (k : Int) (th : Frac) (Lcum : List Frac) (L : Frac)
      (fuel : Nat), samples ≠ [] → 100 ≤ fuel →
      ∃ s', (mkWKM samples k th).cluster fuel Lcum L none = some (Except.ok s') ∧
        s'.iterations ≤ 100 ∧
        ((s'.sweepLog ≠ [] ∧ false ∉ s'.sweepLog) → s'.iterations = 100)) ∧
    (∀ (s : WKM) (fuel : Nat) (Lcum : List Frac) (L : Frac),
      s.initialized = true → boundariesGood s → 1 ≤ s.numclusters →
      s.maxiter = 100 → s.iterations = 0 → s.sweepLog = [] → 100 ≤ fuel →
      ∃ s', WKM.cluster fuel Lcum L none s = some (Except.ok s') ∧
        s'.iterations ≤ 100 ∧
        ((s'.sweepLog ≠ [] ∧ false ∉ s'.sweepLog) → s'.iterations = 100)) := by
  constructor
  · intro samples k th Lcum L fuel hN hfuel
    exact wkm_C5_first_fit_terminates samples k th Lcum L fuel hN hfuel
  · intro s fuel Lcum L h1 h2 h3 h4 h5 h6 h7
    exact cluster_initialized_ok s fuel Lcum L h1 h2 h3 h4 h5 h6 h7

/-- C5 as stated is refuted on freshly initialized instances: on the 1-D
samples 0, 1, 1, 10 with three segments and threshold 0 (cumulative arc
lengths 0, 1, 1, 10, total 10), initializing by trace segmentation yields
the boundary list [0, 3, 4] whose last entry equals the sample count, so the
third segment is empty and the first cluster() call raises EmptyCluster 2
before performing any sweep. -/
theorem wkm_C5_ts_init_error_cex :
    sC5ts.boundaries = [0, 3, 4] ∧
    sC5ts.initialized = true ∧ sC5ts.iterations = 0 ∧ sC5ts.sweepLog = [] ∧
    errOutcome (WKM.cluster 100 lcC5 (Frac.ofNat 10) none sC5ts) =
      some "Empty cluster 2" := by
  refine ⟨by decide, by decide, by decide, by decide, by decide⟩

/-- Witness for the amended C5: the same instance freshly initialized by the
equal-count method (boundaries [0, 1, 3]) satisfies every hypothesis of the
initialized case, so its first fit terminates without error within 100
sweeps. -/
theorem wkm_C5_first_fit_amended_witness :
    ∃ s', WKM.cluster 100 lcC5 (Frac.ofNat 10) none sC5eq = some (Except.ok s') ∧
      s'.iterations ≤ 100 ∧
      ((s'.sweepLog ≠ [] ∧ false ∉ s'.sweepLog) → s'.iterations = 100) :=
  wkm_C5_first_fit_amended.2 sC5eq 100 lcC5 (Frac.ofNat 10) (by decide)
    (by
      refine ⟨by decide, ?_, by decide⟩
      rw [show sC5eq.boundaries = [0, 1, 3] from by decide]
      simp [List.chain'_cons])
    (by decide) (by decide) (by decide) (by decide) (by decide)
